import Mathlib

set_option maxRecDepth 100000

/-!
Verification of the bounded inline string type, its length-prefixed
codec, the message envelope and the host-side bounds-checked logging
sink of the hello-rust-wasm repository.

Bytes are modelled as natural numbers (values below 256 where it
matters), byte buffers as lists of naturals, Unicode scalar values as
natural numbers.  The fixed 128-byte backing array of the Rust
`BoundedString` is modelled as a 128-element list whose head is the
length byte, exactly mirroring `chars: [u8; CHAR_LIMIT + 1]`.
-/

namespace HelloWasm

/-- Max number of bytes that fit in a `BoundedString`
(`pub const CHAR_LIMIT: usize = 127` in `bounded_str.rs`). -/
def CHAR_LIMIT : Nat := 127

/-- Number of bytes of the UTF-8 encoding of the scalar value `c`
(`char::len_utf8` in Rust). -/
def utf8Len (c : Nat) : Nat :=
  if c < 0x80 then 1
  else if c < 0x800 then 2
  else if c < 0x10000 then 3
  else 4

/-- UTF-8 encoding of the scalar value `c` (`char::encode_utf8`). -/
def utf8Encode (c : Nat) : List Nat :=
  if c < 0x80 then [c]
  else if c < 0x800 then [0xC0 + c / 64, 0x80 + c % 64]
  else if c < 0x10000 then [0xE0 + c / 4096, 0x80 + c / 64 % 64, 0x80 + c % 64]
  else [0xF0 + c / 0x40000, 0x80 + c / 4096 % 64, 0x80 + c / 64 % 64, 0x80 + c % 64]

/-- A valid Unicode scalar value: below `0x110000` and not a surrogate.
This is exactly the set of values a Rust `char` can hold. -/
def ValidScalar (c : Nat) : Prop := c < 0x110000 ∧ (c < 0xD800 ∨ 0xE000 ≤ c)

instance (c : Nat) : Decidable (ValidScalar c) := by
  unfold ValidScalar; infer_instance

/-- Decode one UTF-8 sequence: the scalar value whose encoding starts
with leading byte `b` and continues into `rest`, together with the
unconsumed remainder.  Rejects overlong forms, surrogates and values
above `0x10FFFF`, as Rust's `str::from_utf8` does. -/
def utf8DecodeOne (b : Nat) (rest : List Nat) : Option (Nat × List Nat) :=
  if b < 0x80 then some (b, rest)
  else if b < 0xE0 then
    if 1 ≤ rest.length ∧ 0xC2 ≤ b ∧ 0x80 ≤ rest.getD 0 0 ∧ rest.getD 0 0 < 0xC0 then
      some ((b - 0xC0) * 64 + (rest.getD 0 0 - 0x80), rest.drop 1)
    else none
  else if b < 0xF0 then
    if 2 ≤ rest.length ∧ (0x80 ≤ rest.getD 0 0 ∧ rest.getD 0 0 < 0xC0) ∧
        (0x80 ≤ rest.getD 1 0 ∧ rest.getD 1 0 < 0xC0) ∧
        0x800 ≤ (b - 0xE0) * 4096 + (rest.getD 0 0 - 0x80) * 64 + (rest.getD 1 0 - 0x80) ∧
        ((b - 0xE0) * 4096 + (rest.getD 0 0 - 0x80) * 64 + (rest.getD 1 0 - 0x80) < 0xD800 ∨
          0xE000 ≤ (b - 0xE0) * 4096 + (rest.getD 0 0 - 0x80) * 64 + (rest.getD 1 0 - 0x80)) then
      some ((b - 0xE0) * 4096 + (rest.getD 0 0 - 0x80) * 64 + (rest.getD 1 0 - 0x80),
        rest.drop 2)
    else none
  else
    if 3 ≤ rest.length ∧ b < 0xF5 ∧ (0x80 ≤ rest.getD 0 0 ∧ rest.getD 0 0 < 0xC0) ∧
        (0x80 ≤ rest.getD 1 0 ∧ rest.getD 1 0 < 0xC0) ∧
        (0x80 ≤ rest.getD 2 0 ∧ rest.getD 2 0 < 0xC0) ∧
        0x10000 ≤ (b - 0xF0) * 0x40000 + (rest.getD 0 0 - 0x80) * 4096 +
          (rest.getD 1 0 - 0x80) * 64 + (rest.getD 2 0 - 0x80) ∧
        (b - 0xF0) * 0x40000 + (rest.getD 0 0 - 0x80) * 4096 +
          (rest.getD 1 0 - 0x80) * 64 + (rest.getD 2 0 - 0x80) < 0x110000 then
      some ((b - 0xF0) * 0x40000 + (rest.getD 0 0 - 0x80) * 4096 +
        (rest.getD 1 0 - 0x80) * 64 + (rest.getD 2 0 - 0x80), rest.drop 3)
    else none

/-- Fuelled strict UTF-8 decoder loop; the fuel only bounds the number
of decoded characters and is irrelevant once at least the list length. -/
def utf8DecodeAux : Nat → List Nat → Option (List Nat)
  | _, [] => some []
  | 0, _ :: _ => none
  | fuel + 1, b :: rest =>
    match utf8DecodeOne b rest with
    | none => none
    | some (c, rest2) => (utf8DecodeAux fuel rest2).map (fun cs => c :: cs)

/-- Strict UTF-8 decoder: the list of scalar values when the byte list
is valid UTF-8, `none` otherwise (model of `str::from_utf8`). -/
def utf8Decode (l : List Nat) : Option (List Nat) := utf8DecodeAux l.length l

/-- A byte list is valid UTF-8 when the strict decoder accepts it. -/
def ValidUtf8 (bs : List Nat) : Prop := (utf8Decode bs).isSome

instance (bs : List Nat) : Decidable (ValidUtf8 bs) := by
  unfold ValidUtf8; infer_instance

/-- Byte list of a list of scalar values: concatenation of the UTF-8
encodings.  This is the byte content of the Rust `&str` whose char
sequence is `cs`. -/
def strBytes (cs : List Nat) : List Nat := (cs.map utf8Encode).flatten

/-- Total UTF-8 byte length of a list of scalar values. -/
def byteLen (cs : List Nat) : Nat := (cs.map utf8Len).sum

/-- Source: `is_utf8_char_boundary` in `bounded_str.rs`, the bit magic
`(ch as i8) >= -0x40` on a byte reinterpreted as a signed 8-bit
integer. -/
def is_utf8_char_boundary (ch : Nat) : Bool :=
  decide ((if ch < 128 then (ch : Int) else (ch : Int) - 256) ≥ -0x40)

/-- Model of the backward scan loop in `BoundedString::from_str`:
starting at index `i`, step downward while the byte at the index is not
a character-boundary byte, stopping at index 0 unconditionally. -/
def boundary_scan (s : List Nat) : Nat → Nat
  | 0 => 0
  | i + 1 =>
    if is_utf8_char_boundary (s.getD (i + 1) 0) then i + 1
    else boundary_scan s i

/-- Overwrite the segment of `l` starting at position `pos` with `src`
(model of writing through `split_at_mut` slices). -/
def listOverwrite (l : List Nat) (pos : Nat) (src : List Nat) : List Nat :=
  l.take pos ++ src ++ l.drop (pos + src.length)

/-- The Rust `BoundedString`: a 128-byte array whose slot 0 is the
current length and whose slots `1..=len` hold the UTF-8 content. -/
structure BoundedString where
  chars : List Nat
  deriving DecidableEq, Repr

namespace BoundedString

/-- Source: `BoundedString::new`, an all-zero array. -/
def new : BoundedString := ⟨List.replicate (CHAR_LIMIT + 1) 0⟩

/-- Source: `BoundedString::len`, the first array slot. -/
def len (b : BoundedString) : Nat := b.chars.headD 0

/-- Source: `BoundedString::as_bytes`, the `len` bytes following the
length slot. -/
def as_bytes (b : BoundedString) : List Nat := (b.chars.drop 1).take b.len

/-- Source: `BoundedString::append_str_unchecked`: copies `src` into
the buffer right after the current content and stores the new length
(a `u8`, hence the mod 256) in slot 0. -/
def append_str_unchecked (b : BoundedString) (src : List Nat) : BoundedString :=
  ⟨(listOverwrite b.chars (b.len + 1) src).set 0 ((b.len + src.length) % 256)⟩

/-- Source: `BoundedString::from_str_unchecked`. -/
def from_str_unchecked (s : List Nat) : BoundedString :=
  new.append_str_unchecked s

/-- Source: `BoundedString::from_str`: verbatim copy when the bytes
fit, otherwise truncation at the boundary found by scanning backward
from `CHAR_LIMIT`. -/
def from_str (s : List Nat) : BoundedString :=
  if CHAR_LIMIT < s.length then
    from_str_unchecked (s.take (boundary_scan s CHAR_LIMIT))
  else
    from_str_unchecked s

/-- Source: `BoundedString::from_str_checked`. -/
def from_str_checked (s : List Nat) : Option BoundedString :=
  if CHAR_LIMIT < s.length then none
  else some (from_str_unchecked s)

/-- Source: `BoundedString::try_push`: `raw_parts_mut` yields a `rest`
slice of `chars.len() - 1 - len` free bytes; when the character fits it
is encoded there and the length slot is bumped (`u8` add). -/
def try_push (b : BoundedString) (ch : Nat) : BoundedString × Bool :=
  if utf8Len ch ≤ b.chars.length - 1 - b.len then
    (⟨(listOverwrite b.chars (b.len + 1) (utf8Encode ch)).set 0
        ((b.len + utf8Len ch) % 256)⟩, true)
  else (b, false)

/-- Source: `BoundedString::pop`: take the last character of the
content (`chars().next_back()`), shrink the length slot by its byte
width. -/
def pop (b : BoundedString) : Option Nat × BoundedString :=
  match (utf8Decode b.as_bytes).bind List.getLast? with
  | none => (none, b)
  | some ch => (some ch, ⟨b.chars.set 0 ((b.len - utf8Len ch) % 256)⟩)

/-- Well-formedness invariant of the 128-byte representation: full
array length, length byte within capacity, valid UTF-8 content. -/
def WF (b : BoundedString) : Prop :=
  b.chars.length = CHAR_LIMIT + 1 ∧ b.len ≤ CHAR_LIMIT ∧ ValidUtf8 b.as_bytes

instance (b : BoundedString) : Decidable (WF b) := by
  unfold WF; infer_instance

end BoundedString

/-- Decode failures of the codec.  `Truncated` models the
parity-scale-codec input-exhausted error (including the missing length
byte), `StringOutOfBounds` the "string out of bounds" error raised when
the length byte exceeds the capacity, `InvalidUtf8` the
"invalid utf8 string" error, `UnknownDiscriminant` the derive-generated
unknown-variant error of `Kind`. -/
inductive CodecError where
  | Truncated
  | StringOutOfBounds
  | InvalidUtf8
  | UnknownDiscriminant
  deriving DecidableEq, Repr

namespace BoundedString

/-- Source: `impl Encode for BoundedString`: emits `chars[..=len]`,
that is the length byte followed by exactly `len` content bytes. -/
def encode (b : BoundedString) : List Nat := b.chars.take (b.len + 1)

/-- Source: `impl Decode for BoundedString`: read the length byte
(failing when the input is exhausted), reject a length above the
127-byte buffer, read that many bytes (failing when fewer remain),
validate UTF-8, and build the array directly from the bytes. -/
def decode (input : List Nat) :
    Except CodecError (BoundedString × List Nat) :=
  match input with
  | [] => .error .Truncated
  | len :: rest =>
    if CHAR_LIMIT < len then .error .StringOutOfBounds
    else if rest.length < len then .error .Truncated
    else
      match utf8Decode (rest.take len) with
      | none => .error .InvalidUtf8
      | some _ =>
        .ok (⟨len :: (rest.take len ++ List.replicate (CHAR_LIMIT - len) 0)⟩,
          rest.drop len)

end BoundedString

/-- Source: `enum Kind { Ping, Pong }` in `wasm-types/src/lib.rs`. -/
inductive Kind where
  | Ping
  | Pong
  deriving DecidableEq, Repr

namespace Kind

/-- SCALE derive: the discriminant encodes as its variant index byte. -/
def encode : Kind → List Nat
  | .Ping => [0]
  | .Pong => [1]

/-- SCALE derive: read one byte, match it against the variant table,
fail on any other value. -/
def decode : List Nat → Except CodecError (Kind × List Nat)
  | [] => .error .Truncated
  | b :: rest =>
    if b = 0 then .ok (.Ping, rest)
    else if b = 1 then .ok (.Pong, rest)
    else .error .UnknownDiscriminant

end Kind

/-- Source: `struct Message { kind: Kind, message: BoundedString }`. -/
structure Message where
  kind : Kind
  message : BoundedString
  deriving DecidableEq, Repr

namespace Message

/-- SCALE derive: fields encode in declaration order. -/
def encode (m : Message) : List Nat := m.kind.encode ++ m.message.encode

/-- SCALE derive: fields decode in declaration order, the first failure
propagates. -/
def decode (input : List Nat) : Except CodecError (Message × List Nat) :=
  match Kind.decode input with
  | .error e => .error e
  | .ok (k, rest) =>
    match BoundedString.decode rest with
    | .error e => .error e
    | .ok (s, rest2) => .ok (⟨k, s⟩, rest2)

/-- Well-formed message: well-formed payload. -/
def WF (m : Message) : Prop := m.message.WF

end Message

/-- Source: the loop body of `impl From<&str> for BoundedString` in
`tiny_str.rs`: for each character in order, split the remaining buffer
at the character's UTF-8 width; when the split succeeds write the
encoding there and continue on the remainder, otherwise break.  Returns
the total number of bytes written and the final buffer contents. -/
def fromCharsAux : List Nat → List Nat → Nat × List Nat
  | [], buf => (0, buf)
  | c :: cs, buf =>
    if utf8Len c ≤ buf.length then
      ((fromCharsAux cs (buf.drop (utf8Len c))).1 + utf8Len c,
        utf8Encode c ++ (fromCharsAux cs (buf.drop (utf8Len c))).2)
    else (0, buf)

/-- Source: `impl From<&str> for BoundedString` in `tiny_str.rs`
applied to the string whose character sequence is `cs`: a zeroed
128-byte array whose 127-byte tail is filled by the character loop and
whose head accumulates the written length (`u8` adds that never exceed
127 here, modelled by a final mod 256). -/
def BoundedString.from_chars (cs : List Nat) : BoundedString :=
  ⟨(fromCharsAux cs (List.replicate CHAR_LIMIT 0)).1 % 256 ::
    (fromCharsAux cs (List.replicate CHAR_LIMIT 0)).2⟩

/-- Number of leading characters of `cs` whose cumulative UTF-8 byte
length fits within `cap` bytes (the longest fitting character prefix). -/
def fitCount : List Nat → Nat → Nat
  | [], _ => 0
  | c :: cs, cap =>
    if utf8Len c ≤ cap then fitCount cs (cap - utf8Len c) + 1
    else 0

/-- The usize maximum of the 64-bit host running the executor. -/
def USIZE_MAX : Nat := 2 ^ 64 - 1

/-- Failures of the host-side logging sink. -/
inductive LogError where
  | OutOfBounds
  | InvalidUtf8
  deriving DecidableEq, Repr

/-- Source: the `console_log` host closure in
`native-executor/src/main.rs`.  `start` is
`usize::try_from(offset).unwrap_or(usize::MAX)` (a clamp at the usize
maximum), `stop` is `start.saturating_add(length)`; the byte range is
`memory.data().get(start..stop)`, which fails out of bounds unless
`start ≤ stop ≤ mem.length`; the bytes pass `std::str::from_utf8`
before any string is produced. -/
def console_log (mem : List Nat) (offset length : Nat) : Except LogError (List Nat) :=
  if min offset USIZE_MAX ≤ min (min offset USIZE_MAX + length) USIZE_MAX ∧
      min (min offset USIZE_MAX + length) USIZE_MAX ≤ mem.length then
    match utf8Decode ((mem.drop (min offset USIZE_MAX)).take
        (min (min offset USIZE_MAX + length) USIZE_MAX - min offset USIZE_MAX)) with
    | some _ => .ok ((mem.drop (min offset USIZE_MAX)).take
        (min (min offset USIZE_MAX + length) USIZE_MAX - min offset USIZE_MAX))
    | none => .error .InvalidUtf8
  else .error .OutOfBounds

instance {e a : Type} [DecidableEq e] [DecidableEq a] : DecidableEq (Except e a) :=
  fun x y =>
    match x, y with
    | .ok v, .ok w =>
      if h : v = w then isTrue (by rw [h])
      else isFalse (by intro hc; injection hc; contradiction)
    | .error v, .error w =>
      if h : v = w then isTrue (by rw [h])
      else isFalse (by intro hc; injection hc; contradiction)
    | .ok _, .error _ => isFalse (by intro hc; cases hc)
    | .error _, .ok _ => isFalse (by intro hc; cases hc)

instance (m : Message) : Decidable m.WF := by
  unfold Message.WF; infer_instance

/-- The payload bytes of the scenario message, the ASCII bytes of
"message from host" written in `native-executor/src/main.rs`. -/
def hostMessageBytes : List Nat :=
  [0x6D, 0x65, 0x73, 0x73, 0x61, 0x67, 0x65, 0x20, 0x66, 0x72, 0x6F, 0x6D,
    0x20, 0x68, 0x6F, 0x73, 0x74]

/-- The scenario message built in `main`: kind `Ping`, payload
`BoundedString::from("message from host")`. -/
def scenarioMessage : Message :=
  ⟨Kind.Ping, BoundedString.from_str hostMessageBytes⟩

/-- The byte sequence the specification claims for the scenario
encoding: discriminant `0x00`, length byte `0x12`, then the payload. -/
def claimedScenarioBytes : List Nat :=
  0x00 :: 0x12 :: hostMessageBytes

/-- The byte sequence the scenario encoding actually produces:
discriminant `0x00`, length byte `0x11` (= 17), then the 17 payload
bytes. -/
def actualScenarioBytes : List Nat :=
  0x00 :: 0x11 :: hostMessageBytes

/-! Basic facts about the UTF-8 model. -/

theorem utf8Len_pos (c : Nat) : 1 ≤ utf8Len c := by
  unfold utf8Len; split_ifs <;> omega

theorem utf8Len_le_four (c : Nat) : utf8Len c ≤ 4 := by
  unfold utf8Len; split_ifs <;> omega

theorem utf8Encode_length (c : Nat) : (utf8Encode c).length = utf8Len c := by
  unfold utf8Encode utf8Len
  split <;> [skip; split] <;> [rfl; rfl; skip]
  split <;> rfl

theorem is_utf8_char_boundary_iff (ch : Nat) :
    is_utf8_char_boundary ch = true ↔ (ch < 0x80 ∨ 0xC0 ≤ ch) := by
  unfold is_utf8_char_boundary
  split <;> simp <;> omega

theorem utf8DecodeOne_length {b : Nat} {rest : List Nat} {c : Nat} {rest2 : List Nat}
    (h : utf8DecodeOne b rest = some (c, rest2)) : rest2.length ≤ rest.length := by
  unfold utf8DecodeOne at h
  split_ifs at h <;>
    simp only [Option.some.injEq, Prod.mk.injEq, reduceCtorEq] at h <;>
    obtain ⟨-, rfl⟩ := h <;> simp

theorem utf8DecodeAux_fuel (fuel : Nat) :
    ∀ (fuel2 : Nat) (l : List Nat), l.length ≤ fuel → l.length ≤ fuel2 →
      utf8DecodeAux fuel l = utf8DecodeAux fuel2 l := by
  induction fuel with
  | zero =>
    intro fuel2 l h _
    have hl : l = [] := List.length_eq_zero.mp (Nat.le_zero.mp h)
    subst hl
    cases fuel2 <;> rfl
  | succ fuel ih =>
    intro fuel2 l h h2
    match l with
    | [] => cases fuel2 <;> rfl
    | b :: rest =>
      match fuel2 with
      | fuel2 + 1 =>
        simp only [utf8DecodeAux]
        cases hone : utf8DecodeOne b rest with
        | none => rfl
        | some p =>
          obtain ⟨c, r2⟩ := p
          have hlen := utf8DecodeOne_length hone
          simp only [List.length_cons, Nat.succ_le_succ_iff] at h h2
          show Option.map _ (utf8DecodeAux fuel r2) = Option.map _ (utf8DecodeAux fuel2 r2)
          rw [ih fuel2 r2 (le_trans hlen h) (le_trans hlen h2)]

theorem utf8Decode_nil : utf8Decode [] = some [] := rfl

theorem utf8Decode_cons (b : Nat) (rest : List Nat) :
    utf8Decode (b :: rest) =
      match utf8DecodeOne b rest with
      | none => none
      | some (c, rest2) => (utf8Decode rest2).map (fun cs => c :: cs) := by
  show utf8DecodeAux (rest.length + 1) (b :: rest) = _
  simp only [utf8DecodeAux]
  cases hone : utf8DecodeOne b rest with
  | none => rfl
  | some p =>
    obtain ⟨c, r2⟩ := p
    have hlen := utf8DecodeOne_length hone
    show Option.map _ (utf8DecodeAux rest.length r2) = Option.map _ (utf8Decode r2)
    rw [utf8Decode, utf8DecodeAux_fuel rest.length r2.length r2 hlen le_rfl]

theorem utf8DecodeOne_encode (c : Nat) (h : ValidScalar c) (rest : List Nat) :
    ∃ b tl, utf8Encode c = b :: tl ∧ utf8DecodeOne b (tl ++ rest) = some (c, rest) := by
  obtain ⟨h1, h2⟩ := h
  by_cases hc1 : c < 0x80
  · exact ⟨c, [], by simp [utf8Encode, hc1], by simp [utf8DecodeOne, hc1]⟩
  · by_cases hc2 : c < 0x800
    · refine ⟨0xC0 + c / 64, [0x80 + c % 64],
        by simp [utf8Encode, hc1, hc2], ?_⟩
      unfold utf8DecodeOne
      simp only [List.cons_append, List.nil_append, List.getD_cons_zero,
        List.length_cons, List.drop_succ_cons, List.drop_zero]
      rw [if_neg (by omega), if_pos (by omega),
        if_pos ⟨by omega, by omega, by omega, by omega⟩]
      simp only [Option.some.injEq, Prod.mk.injEq]
      exact ⟨by omega, trivial⟩
    · by_cases hc3 : c < 0x10000
      · refine ⟨0xE0 + c / 4096, [0x80 + c / 64 % 64, 0x80 + c % 64],
          by simp [utf8Encode, hc1, hc2, hc3], ?_⟩
        unfold utf8DecodeOne
        simp only [List.cons_append, List.nil_append, List.getD_cons_zero,
          List.getD_cons_succ, List.length_cons, List.drop_succ_cons, List.drop_zero]
        rw [if_neg (by omega), if_neg (by omega), if_pos (by omega),
          if_pos ⟨by omega, ⟨by omega, by omega⟩, ⟨by omega, by omega⟩, by omega, by omega⟩]
        simp only [Option.some.injEq, Prod.mk.injEq]
        exact ⟨by omega, trivial⟩
      · refine ⟨0xF0 + c / 0x40000, [0x80 + c / 4096 % 64, 0x80 + c / 64 % 64, 0x80 + c % 64],
          by simp [utf8Encode, hc1, hc2, hc3], ?_⟩
        unfold utf8DecodeOne
        simp only [List.cons_append, List.nil_append, List.getD_cons_zero,
          List.getD_cons_succ, List.length_cons, List.drop_succ_cons, List.drop_zero]
        rw [if_neg (by omega), if_neg (by omega), if_neg (by omega),
          if_pos ⟨by omega, by omega, ⟨by omega, by omega⟩, ⟨by omega, by omega⟩,
            ⟨by omega, by omega⟩, by omega, by omega⟩]
        simp only [Option.some.injEq, Prod.mk.injEq]
        exact ⟨by omega, trivial⟩

theorem utf8Decode_encode_append (c : Nat) (h : ValidScalar c) (rest : List Nat) :
    utf8Decode (utf8Encode c ++ rest) = (utf8Decode rest).map (fun cs => c :: cs) := by
  obtain ⟨b, tl, henc, hone⟩ := utf8DecodeOne_encode c h rest
  rw [henc, List.cons_append, utf8Decode_cons, hone]

theorem strBytes_nil : strBytes [] = [] := rfl

theorem strBytes_cons (c : Nat) (cs : List Nat) :
    strBytes (c :: cs) = utf8Encode c ++ strBytes cs := by
  simp [strBytes]

theorem byteLen_nil : byteLen [] = 0 := rfl

theorem byteLen_cons (c : Nat) (cs : List Nat) :
    byteLen (c :: cs) = utf8Len c + byteLen cs := by
  simp [byteLen]

theorem strBytes_length (cs : List Nat) : (strBytes cs).length = byteLen cs := by
  induction cs with
  | nil => rfl
  | cons c cs ih => simp [strBytes_cons, byteLen_cons, utf8Encode_length, ih]

theorem utf8Decode_strBytes (cs : List Nat) (h : ∀ c ∈ cs, ValidScalar c) :
    utf8Decode (strBytes cs) = some cs := by
  induction cs with
  | nil => rfl
  | cons c cs ih =>
    rw [strBytes_cons, utf8Decode_encode_append c (h c (by simp)),
      ih (fun d hd => h d (by simp [hd]))]
    rfl

theorem valid_strBytes (cs : List Nat) (h : ∀ c ∈ cs, ValidScalar c) :
    ValidUtf8 (strBytes cs) := by
  rw [ValidUtf8, utf8Decode_strBytes cs h]; rfl

theorem utf8DecodeOne_sound {b : Nat} {rest : List Nat} {c : Nat} {rest2 : List Nat}
    (h : utf8DecodeOne b rest = some (c, rest2)) :
    ValidScalar c ∧ b :: rest = utf8Encode c ++ rest2 := by
  unfold utf8DecodeOne at h
  by_cases hb1 : b < 0x80
  · rw [if_pos hb1] at h
    simp only [Option.some.injEq, Prod.mk.injEq] at h
    obtain ⟨rfl, rfl⟩ := h
    exact ⟨⟨by omega, by omega⟩, by simp [utf8Encode, hb1]⟩
  · rw [if_neg hb1] at h
    by_cases hb2 : b < 0xE0
    · rw [if_pos hb2] at h
      by_cases hcond : 1 ≤ rest.length ∧ 0xC2 ≤ b ∧ 0x80 ≤ rest.getD 0 0 ∧ rest.getD 0 0 < 0xC0
      · rw [if_pos hcond] at h
        obtain ⟨hr, hb, hx1, hx2⟩ := hcond
        simp only [Option.some.injEq, Prod.mk.injEq] at h
        obtain ⟨rfl, rfl⟩ := h
        cases rest with
        | nil => simp at hr
        | cons x t =>
          simp only [List.getD_cons_zero] at hx1 hx2 ⊢
          refine ⟨⟨by omega, Or.inl (by omega)⟩, ?_⟩
          rw [utf8Encode, if_neg (by omega), if_pos (by omega)]
          simp only [List.drop_succ_cons, List.drop_zero, List.cons_append,
            List.nil_append, List.cons.injEq]
          refine ⟨by omega, by omega, trivial⟩
      · rw [if_neg hcond] at h; cases h
    · rw [if_neg hb2] at h
      by_cases hb3 : b < 0xF0
      · rw [if_pos hb3] at h
        by_cases hcond : 2 ≤ rest.length ∧ (0x80 ≤ rest.getD 0 0 ∧ rest.getD 0 0 < 0xC0) ∧
            (0x80 ≤ rest.getD 1 0 ∧ rest.getD 1 0 < 0xC0) ∧
            0x800 ≤ (b - 0xE0) * 4096 + (rest.getD 0 0 - 0x80) * 64 + (rest.getD 1 0 - 0x80) ∧
            ((b - 0xE0) * 4096 + (rest.getD 0 0 - 0x80) * 64 + (rest.getD 1 0 - 0x80) < 0xD800 ∨
              0xE000 ≤ (b - 0xE0) * 4096 + (rest.getD 0 0 - 0x80) * 64 + (rest.getD 1 0 - 0x80))
        · rw [if_pos hcond] at h
          obtain ⟨hr, ⟨hx1, hx2⟩, ⟨hy1, hy2⟩, hlo, hsur⟩ := hcond
          simp only [Option.some.injEq, Prod.mk.injEq] at h
          obtain ⟨rfl, rfl⟩ := h
          cases rest with
          | nil => simp at hr
          | cons x t =>
            cases t with
            | nil => simp at hr
            | cons y t2 =>
              simp only [List.getD_cons_zero, List.getD_cons_succ] at hx1 hx2 hy1 hy2 hlo hsur ⊢
              constructor
              · refine ⟨by omega, ?_⟩
                rcases hsur with hs | hs
                · exact Or.inl (by omega)
                · exact Or.inr (by omega)
              · rw [utf8Encode, if_neg (by omega), if_neg (by omega), if_pos (by omega)]
                simp only [List.drop_succ_cons, List.drop_zero, List.cons_append,
                  List.nil_append, List.cons.injEq]
                refine ⟨by omega, by omega, by omega, trivial⟩
        · rw [if_neg hcond] at h; cases h
      · rw [if_neg hb3] at h
        by_cases hcond : 3 ≤ rest.length ∧ b < 0xF5 ∧
            (0x80 ≤ rest.getD 0 0 ∧ rest.getD 0 0 < 0xC0) ∧
            (0x80 ≤ rest.getD 1 0 ∧ rest.getD 1 0 < 0xC0) ∧
            (0x80 ≤ rest.getD 2 0 ∧ rest.getD 2 0 < 0xC0) ∧
            0x10000 ≤ (b - 0xF0) * 0x40000 + (rest.getD 0 0 - 0x80) * 4096 +
              (rest.getD 1 0 - 0x80) * 64 + (rest.getD 2 0 - 0x80) ∧
            (b - 0xF0) * 0x40000 + (rest.getD 0 0 - 0x80) * 4096 +
              (rest.getD 1 0 - 0x80) * 64 + (rest.getD 2 0 - 0x80) < 0x110000
        · rw [if_pos hcond] at h
          obtain ⟨hr, hb5, ⟨hx1, hx2⟩, ⟨hy1, hy2⟩, ⟨hz1, hz2⟩, hlo, hhi⟩ := hcond
          simp only [Option.some.injEq, Prod.mk.injEq] at h
          obtain ⟨rfl, rfl⟩ := h
          cases rest with
          | nil => simp at hr
          | cons x t =>
            cases t with
            | nil => simp at hr
            | cons y t2 =>
              cases t2 with
              | nil => simp at hr
              | cons z t3 =>
                simp only [List.getD_cons_zero, List.getD_cons_succ]
                  at hx1 hx2 hy1 hy2 hz1 hz2 hlo hhi ⊢
                refine ⟨⟨by omega, Or.inr (by omega)⟩, ?_⟩
                rw [utf8Encode, if_neg (by omega), if_neg (by omega), if_neg (by omega)]
                simp only [List.drop_succ_cons, List.drop_zero, List.cons_append,
                  List.nil_append, List.cons.injEq]
                refine ⟨by omega, by omega, by omega, by omega, trivial⟩
        · rw [if_neg hcond] at h; cases h

theorem utf8Decode_sound (fuel : Nat) :
    ∀ (l : List Nat) (cs : List Nat), l.length ≤ fuel → utf8Decode l = some cs →
      l = strBytes cs ∧ ∀ c ∈ cs, ValidScalar c := by
  induction fuel with
  | zero =>
    intro l cs h hdec
    have hl : l = [] := List.length_eq_zero.mp (Nat.le_zero.mp h)
    subst hl
    rw [utf8Decode_nil, Option.some.injEq] at hdec
    subst hdec
    exact ⟨rfl, by simp⟩
  | succ fuel ih =>
    intro l cs h hdec
    match l with
    | [] =>
      rw [utf8Decode_nil, Option.some.injEq] at hdec
      subst hdec
      exact ⟨rfl, by simp⟩
    | b :: rest =>
      rw [utf8Decode_cons] at hdec
      cases hone : utf8DecodeOne b rest with
      | none => rw [hone] at hdec; simp at hdec
      | some p =>
        obtain ⟨c, r2⟩ := p
        rw [hone] at hdec
        have hdec2 : (utf8Decode r2).map (fun cs => c :: cs) = some cs := hdec
        rw [Option.map_eq_some'] at hdec2
        obtain ⟨cs2, hdec3, rfl⟩ := hdec2
        have hlen := utf8DecodeOne_length hone
        simp only [List.length_cons, Nat.succ_le_succ_iff] at h
        obtain ⟨hrec1, hrec2⟩ := ih r2 cs2 (le_trans hlen h) hdec3
        obtain ⟨hv, hbytes⟩ := utf8DecodeOne_sound hone
        constructor
        · rw [strBytes_cons, ← hrec1, hbytes]
        · intro d hd
          rcases List.mem_cons.mp hd with rfl | hd2
          · exact hv
          · exact hrec2 d hd2

/-! Structure of character boundaries inside a valid UTF-8 byte list. -/

theorem byteLen_take_le (cs : List Nat) (m : Nat) : byteLen (cs.take m) ≤ byteLen cs := by
  induction cs generalizing m with
  | nil => simp [byteLen]
  | cons c cs ih =>
    cases m with
    | zero => simp [byteLen]
    | succ m =>
      simp only [List.take_succ_cons, byteLen_cons]
      exact Nat.add_le_add_left (ih m) _

theorem byteLen_take_mono (cs : List Nat) {m m2 : Nat} (h : m ≤ m2) :
    byteLen (cs.take m) ≤ byteLen (cs.take m2) := by
  induction cs generalizing m m2 with
  | nil => simp [byteLen]
  | cons c cs ih =>
    cases m with
    | zero => simp [byteLen]
    | succ m =>
      cases m2 with
      | zero => omega
      | succ m2 =>
        simp only [List.take_succ_cons, byteLen_cons]
        exact Nat.add_le_add_left (ih (Nat.succ_le_succ_iff.mp h)) _

theorem byteLen_take_succ (cs : List Nat) (m : Nat) (h : m < cs.length) :
    byteLen (cs.take (m + 1)) = byteLen (cs.take m) + utf8Len (cs.getD m 0) := by
  induction cs generalizing m with
  | nil => simp at h
  | cons c cs ih =>
    cases m with
    | zero => simp [byteLen_cons, byteLen_nil]
    | succ m =>
      simp only [List.take_succ_cons, byteLen_cons, List.getD_cons_succ]
      rw [ih m (by simpa using h)]
      omega

theorem strBytes_take (cs : List Nat) (m : Nat) :
    (strBytes cs).take (byteLen (cs.take m)) = strBytes (cs.take m) := by
  induction cs generalizing m with
  | nil => simp [strBytes, byteLen]
  | cons c cs ih =>
    cases m with
    | zero => simp [byteLen, strBytes]
    | succ m =>
      simp only [List.take_succ_cons, byteLen_cons, strBytes_cons]
      rw [List.take_append_eq_append_take]
      have h1 : (utf8Encode c).length ≤ utf8Len c + byteLen (cs.take m) := by
        rw [utf8Encode_length]; omega
      rw [List.take_of_length_le h1, utf8Encode_length]
      congr 1
      rw [Nat.add_sub_cancel_left]
      exact ih m

theorem utf8Encode_getD_zero_boundary (c : Nat) :
    is_utf8_char_boundary ((utf8Encode c).getD 0 0) = true := by
  rw [is_utf8_char_boundary_iff]
  unfold utf8Encode
  split_ifs <;> simp <;> omega

theorem utf8Encode_getD_cont (c : Nat) (i : Nat) (h1 : 0 < i) (h2 : i < utf8Len c) :
    is_utf8_char_boundary ((utf8Encode c).getD i 0) = false := by
  rw [Bool.eq_false_iff]
  intro hb
  have hor := (is_utf8_char_boundary_iff _).mp hb
  by_cases hc1 : c < 0x80
  · unfold utf8Len at h2
    rw [if_pos hc1] at h2
    omega
  · by_cases hc2 : c < 0x800
    · have hl : utf8Len c = 2 := by unfold utf8Len; rw [if_neg hc1, if_pos hc2]
      rw [hl] at h2
      have hi : i = 1 := by omega
      subst hi
      simp only [utf8Encode, if_neg hc1, if_pos hc2, List.getD_cons_succ,
        List.getD_cons_zero] at hor
      omega
    · by_cases hc3 : c < 0x10000
      · have hl : utf8Len c = 3 := by unfold utf8Len; rw [if_neg hc1, if_neg hc2, if_pos hc3]
        rw [hl] at h2
        simp only [utf8Encode, if_neg hc1, if_neg hc2, if_pos hc3] at hor
        interval_cases i <;>
          simp only [List.getD_cons_succ, List.getD_cons_zero] at hor <;> omega
      · have hl : utf8Len c = 4 := by unfold utf8Len; rw [if_neg hc1, if_neg hc2, if_neg hc3]
        rw [hl] at h2
        simp only [utf8Encode, if_neg hc1, if_neg hc2, if_neg hc3] at hor
        interval_cases i <;>
          simp only [List.getD_cons_succ, List.getD_cons_zero] at hor <;> omega

theorem charStart_shape (cs : List Nat) (c : Nat) (i : Nat) :
    (∃ m, byteLen ((c :: cs).take m) = i) ↔
      (i = 0 ∨ ∃ m2, utf8Len c + byteLen (cs.take m2) = i) := by
  constructor
  · rintro ⟨m, hm⟩
    cases m with
    | zero => exact Or.inl (by simpa [byteLen] using hm.symm)
    | succ m =>
      right
      exact ⟨m, by simpa [byteLen_cons] using hm⟩
  · rintro (rfl | ⟨m2, hm2⟩)
    · exact ⟨0, by simp [byteLen]⟩
    · exact ⟨m2 + 1, by simpa [byteLen_cons] using hm2⟩

theorem strBytes_boundary (cs : List Nat) (i : Nat) (hi : i < byteLen cs) :
    is_utf8_char_boundary ((strBytes cs).getD i 0) = true ↔
      ∃ m, byteLen (cs.take m) = i := by
  induction cs generalizing i with
  | nil => simp [byteLen] at hi
  | cons c cs ih =>
    rw [strBytes_cons, charStart_shape]
    by_cases hlt : i < utf8Len c
    · rw [List.getD_append _ _ _ _ (by rw [utf8Encode_length]; omega)]
      cases Nat.eq_zero_or_pos i with
      | inl h0 =>
        subst h0
        simp only [utf8Encode_getD_zero_boundary, true_iff]
        exact Or.inl trivial
      | inr hpos =>
        rw [utf8Encode_getD_cont c i hpos hlt]
        refine ⟨fun hcontra => Bool.noConfusion hcontra, ?_⟩
        rintro (rfl | ⟨m2, hm2⟩)
        · exact absurd hpos (by omega)
        · exact absurd hm2 (by omega)
    · have hge : utf8Len c ≤ i := by omega
      rw [List.getD_append_right _ _ _ _ (by rw [utf8Encode_length]; omega)]
      rw [utf8Encode_length]
      have hi2 : i - utf8Len c < byteLen cs := by
        rw [byteLen_cons] at hi; omega
      rw [ih (i - utf8Len c) hi2]
      have hpos := utf8Len_pos c
      constructor
      · rintro ⟨m2, hm2⟩
        exact Or.inr ⟨m2, by omega⟩
      · rintro (rfl | ⟨m2, hm2⟩)
        · omega
        · exact ⟨m2, by omega⟩

theorem charStart_near (cs : List Nat) (i : Nat) (hi : i < byteLen cs) :
    ∃ m, m < cs.length ∧ byteLen (cs.take m) ≤ i ∧
      i < byteLen (cs.take m) + utf8Len (cs.getD m 0) := by
  induction cs generalizing i with
  | nil => simp [byteLen] at hi
  | cons c cs ih =>
    by_cases hlt : i < utf8Len c
    · exact ⟨0, by simp, by simp [byteLen], by simpa [byteLen] using hlt⟩
    · have hge : utf8Len c ≤ i := by omega
      have hi2 : i - utf8Len c < byteLen cs := by
        rw [byteLen_cons] at hi; omega
      obtain ⟨m, hm1, hm2, hm3⟩ := ih (i - utf8Len c) hi2
      refine ⟨m + 1, by simpa using hm1, ?_, ?_⟩
      · simp only [List.take_succ_cons, byteLen_cons]
        omega
      · simp only [List.take_succ_cons, byteLen_cons, List.getD_cons_succ]
        omega

/-! Behaviour of the backward boundary scan loop. -/

theorem boundary_scan_le (s : List Nat) (i : Nat) : boundary_scan s i ≤ i := by
  induction i with
  | zero => simp [boundary_scan]
  | succ i ih =>
    rw [boundary_scan]
    split_ifs with h
    · omega
    · omega

theorem boundary_scan_above (s : List Nat) (i : Nat) :
    ∀ j, boundary_scan s i < j → j ≤ i → is_utf8_char_boundary (s.getD j 0) = false := by
  induction i with
  | zero =>
    intro j h1 h2
    simp [boundary_scan] at h1
    omega
  | succ i ih =>
    intro j h1 h2
    rw [boundary_scan] at h1
    split_ifs at h1 with hb
    · omega
    · rcases Nat.lt_or_ge j (i + 1) with hj | hj
      · exact ih j h1 (by omega)
      · have : j = i + 1 := by omega
        subst this
        exact Bool.not_eq_true _ ▸ (by simpa using hb)

theorem boundary_scan_found (s : List Nat) (i : Nat) :
    boundary_scan s i = 0 ∨ is_utf8_char_boundary (s.getD (boundary_scan s i) 0) = true := by
  induction i with
  | zero => exact Or.inl rfl
  | succ i ih =>
    rw [boundary_scan]
    split_ifs with hb
    · exact Or.inr hb
    · exact ih

theorem boundary_scan_ge (s : List Nat) (i : Nat) (p : Nat)
    (hp : is_utf8_char_boundary (s.getD p 0) = true) (hpi : p ≤ i) :
    p ≤ boundary_scan s i := by
  by_contra hlt
  have := boundary_scan_above s i p (by omega) hpi
  rw [hp] at this
  cases this

/-! Representation lemmas for `BoundedString`. -/

theorem BoundedString.len_shape (b : BoundedString) (c0 : Nat) (data : List Nat)
    (h : b.chars = c0 :: data) : b.len = c0 := by
  rw [BoundedString.len, h]
  rfl

theorem BoundedString.WF_shape (b : BoundedString) (h : b.WF) :
    ∃ data, b.chars = b.len :: data ∧ data.length = CHAR_LIMIT ∧
      b.as_bytes = data.take b.len := by
  obtain ⟨hlen, hcap, hutf⟩ := h
  match hc : b.chars with
  | [] => rw [hc] at hlen; cases hlen
  | c0 :: data =>
    have hl : b.len = c0 := b.len_shape c0 data hc
    refine ⟨data, ?_, ?_, ?_⟩
    · rw [hl]
    · rw [hc] at hlen
      simpa [CHAR_LIMIT] using hlen
    · rw [BoundedString.as_bytes, hc]
      rfl

theorem BoundedString.as_bytes_length (b : BoundedString) (h : b.WF) :
    b.as_bytes.length = b.len := by
  obtain ⟨data, hc, hdl, hab⟩ := b.WF_shape h
  rw [hab, List.length_take, hdl]
  have := h.2.1
  omega

theorem BoundedString.from_str_unchecked_chars (s : List Nat) (h : s.length ≤ CHAR_LIMIT) :
    (BoundedString.from_str_unchecked s).chars =
      s.length :: (s ++ List.replicate (CHAR_LIMIT - s.length) 0) := by
  rw [BoundedString.from_str_unchecked, BoundedString.append_str_unchecked]
  have hnl : BoundedString.new.len = 0 := rfl
  rw [hnl]
  show ((listOverwrite (List.replicate (CHAR_LIMIT + 1) 0) 1 s).set 0 ((0 + s.length) % 256)) = _
  rw [listOverwrite, List.take_replicate, List.drop_replicate]
  have h1 : min 1 (CHAR_LIMIT + 1) = 1 := by simp [CHAR_LIMIT]
  rw [h1]
  have h2 : CHAR_LIMIT + 1 - (1 + s.length) = CHAR_LIMIT - s.length := by omega
  rw [h2]
  show (0 :: (s ++ List.replicate (CHAR_LIMIT - s.length) 0)).set 0 ((0 + s.length) % 256) = _
  rw [List.set_cons_zero]
  congr 1
  rw [CHAR_LIMIT] at h
  omega

theorem BoundedString.from_str_unchecked_len (s : List Nat) (h : s.length ≤ CHAR_LIMIT) :
    (BoundedString.from_str_unchecked s).len = s.length :=
  (BoundedString.from_str_unchecked s).len_shape _ _
    (BoundedString.from_str_unchecked_chars s h)

theorem BoundedString.from_str_unchecked_as_bytes (s : List Nat) (h : s.length ≤ CHAR_LIMIT) :
    (BoundedString.from_str_unchecked s).as_bytes = s := by
  rw [BoundedString.as_bytes, BoundedString.from_str_unchecked_chars s h,
    BoundedString.from_str_unchecked_len s h]
  simp

theorem BoundedString.from_str_unchecked_WF (s : List Nat) (h : s.length ≤ CHAR_LIMIT)
    (hv : ValidUtf8 s) : (BoundedString.from_str_unchecked s).WF := by
  refine ⟨?_, ?_, ?_⟩
  · rw [BoundedString.from_str_unchecked_chars s h]
    simp
    omega
  · rw [BoundedString.from_str_unchecked_len s h]
    exact h
  · rw [BoundedString.from_str_unchecked_as_bytes s h]
    exact hv

/-! Codec lemmas for `BoundedString`. -/

theorem BoundedString.encode_eq (b : BoundedString) (h : b.WF) :
    b.encode = b.len :: b.as_bytes := by
  obtain ⟨data, hc, hdl, hab⟩ := b.WF_shape h
  rw [BoundedString.encode, hc, hab, List.take_succ_cons]

theorem BoundedString.decode_cons (L : Nat) (r : List Nat) :
    BoundedString.decode (L :: r) =
      (if CHAR_LIMIT < L then .error .StringOutOfBounds
       else if r.length < L then .error .Truncated
       else
         match utf8Decode (r.take L) with
         | none => .error .InvalidUtf8
         | some _ =>
           .ok (⟨L :: (r.take L ++ List.replicate (CHAR_LIMIT - L) 0)⟩, r.drop L)) := by
  rfl

theorem BoundedString.decode_ok_inv (input : List Nat) (b : BoundedString)
    (rest : List Nat) (h : BoundedString.decode input = .ok (b, rest)) :
    ∃ L r, input = L :: r ∧ L ≤ CHAR_LIMIT ∧ L ≤ r.length ∧
      ValidUtf8 (r.take L) ∧
      b.chars = L :: (r.take L ++ List.replicate (CHAR_LIMIT - L) 0) ∧
      rest = r.drop L := by
  match input with
  | [] => cases h
  | L :: r =>
    rw [BoundedString.decode_cons] at h
    by_cases h1 : CHAR_LIMIT < L
    · rw [if_pos h1] at h; cases h
    · rw [if_neg h1] at h
      by_cases h2 : r.length < L
      · rw [if_pos h2] at h; cases h
      · rw [if_neg h2] at h
        cases hdec : utf8Decode (r.take L) with
        | none => rw [hdec] at h; simp at h
        | some cs =>
          rw [hdec] at h
          have h3 : (Except.ok (⟨L :: (r.take L ++ List.replicate (CHAR_LIMIT - L) 0)⟩,
              r.drop L) : Except CodecError (BoundedString × List Nat)) =
              Except.ok (b, rest) := h
          simp only [Except.ok.injEq, Prod.mk.injEq] at h3
          obtain ⟨hb, hr⟩ := h3
          exact ⟨L, r, rfl, by omega, by omega, by rw [ValidUtf8, hdec]; rfl,
            by rw [← hb], hr.symm⟩

theorem BoundedString.decode_ok_WF (input : List Nat) (b : BoundedString)
    (rest : List Nat) (h : BoundedString.decode input = .ok (b, rest)) :
    b.WF ∧ b.len ≤ CHAR_LIMIT ∧
      ∃ L r, input = L :: r ∧ b.len = L ∧ b.as_bytes = r.take L ∧ rest = r.drop L := by
  obtain ⟨L, r, hin, hL, hr, hv, hb, hrest⟩ := BoundedString.decode_ok_inv input b rest h
  have hlen : b.len = L := b.len_shape _ _ hb
  have htake : (r.take L).length = L := by
    rw [List.length_take]
    omega
  have hbytes : b.as_bytes = r.take L := by
    rw [BoundedString.as_bytes, hb, hlen]
    simp only [List.drop_succ_cons, List.drop_zero]
    rw [List.take_append_eq_append_take, List.take_of_length_le (le_of_eq htake), htake]
    simp
  refine ⟨⟨?_, ?_, ?_⟩, ?_, L, r, hin, hlen, hbytes, hrest⟩
  · rw [hb]
    simp only [List.length_cons, List.length_append, List.length_replicate, htake]
    omega
  · omega
  · rw [hbytes]
    exact hv
  · omega

theorem BoundedString.decode_encode (b : BoundedString) (h : b.WF) :
    ∃ b2, BoundedString.decode b.encode = .ok (b2, []) ∧
      b2.as_bytes = b.as_bytes ∧ b2.len = b.len := by
  have habl := b.as_bytes_length h
  have hcap := h.2.1
  have hutf := h.2.2
  rw [BoundedString.encode_eq b h, BoundedString.decode_cons]
  rw [if_neg (by omega), if_neg (by omega)]
  rw [List.take_of_length_le (by omega)]
  cases hdec : utf8Decode b.as_bytes with
  | none => rw [ValidUtf8, hdec] at hutf; cases hutf
  | some cs =>
    refine ⟨_, by rw [List.drop_of_length_le (by omega)], ?_, ?_⟩
    · show ((b.as_bytes ++ List.replicate (CHAR_LIMIT - b.len) 0).take
        (BoundedString.len _)) = b.as_bytes
      have hl2 : BoundedString.len
          ⟨b.len :: (b.as_bytes ++ List.replicate (CHAR_LIMIT - b.len) 0)⟩ = b.len := rfl
      rw [hl2, List.take_append_eq_append_take, List.take_of_length_le (le_of_eq habl), habl]
      simp
    · rfl

/-! Valid prefixes and suffix extensions of UTF-8 byte lists. -/

theorem strBytes_append (l1 l2 : List Nat) :
    strBytes (l1 ++ l2) = strBytes l1 ++ strBytes l2 := by
  simp [strBytes]

theorem byteLen_append (l1 l2 : List Nat) :
    byteLen (l1 ++ l2) = byteLen l1 + byteLen l2 := by
  simp [byteLen]

theorem valid_take (cs : List Nat) (m : Nat) (hv : ∀ c ∈ cs, ValidScalar c) :
    ValidUtf8 (strBytes (cs.take m)) :=
  valid_strBytes (cs.take m) (fun c hc => hv c (List.mem_of_mem_take hc))

theorem valid_append_encode (bs : List Nat) (ch : Nat) (h : ValidUtf8 bs)
    (hch : ValidScalar ch) : ValidUtf8 (bs ++ utf8Encode ch) := by
  rw [ValidUtf8, Option.isSome_iff_exists] at h
  obtain ⟨cs, hcs⟩ := h
  obtain ⟨hb, hv⟩ := utf8Decode_sound bs.length bs cs le_rfl hcs
  subst hb
  have henc : utf8Encode ch = strBytes [ch] := by simp [strBytes]
  rw [henc, ← strBytes_append]
  refine valid_strBytes _ (fun c hc => ?_)
  rcases List.mem_append.mp hc with hc1 | hc2
  · exact hv c hc1
  · rw [List.mem_singleton.mp hc2]
    exact hch

/-! Behaviour of `from_str` on valid UTF-8 input. -/

theorem from_str_fit (cs : List Nat) (hv : ∀ c ∈ cs, ValidScalar c)
    (hfit : byteLen cs ≤ CHAR_LIMIT) :
    (BoundedString.from_str (strBytes cs)).as_bytes = strBytes cs ∧
      (BoundedString.from_str (strBytes cs)).len = byteLen cs ∧
      (BoundedString.from_str (strBytes cs)).WF := by
  have hl : (strBytes cs).length = byteLen cs := strBytes_length cs
  rw [BoundedString.from_str, if_neg (by omega)]
  refine ⟨BoundedString.from_str_unchecked_as_bytes _ (by omega), ?_,
    BoundedString.from_str_unchecked_WF _ (by omega) (valid_strBytes cs hv)⟩
  rw [BoundedString.from_str_unchecked_len _ (by omega), hl]

theorem from_str_trunc_key (cs : List Nat) (_hv : ∀ c ∈ cs, ValidScalar c)
    (hlong : CHAR_LIMIT < byteLen cs) :
    ∃ m, byteLen (cs.take m) = boundary_scan (strBytes cs) CHAR_LIMIT ∧
      boundary_scan (strBytes cs) CHAR_LIMIT ≤ CHAR_LIMIT ∧
      CHAR_LIMIT - 3 ≤ boundary_scan (strBytes cs) CHAR_LIMIT := by
  have hl : (strBytes cs).length = byteLen cs := strBytes_length cs
  obtain ⟨m0, hm0, hp1, hp2⟩ := charStart_near cs CHAR_LIMIT (by omega)
  have hw4 := utf8Len_le_four (cs.getD m0 0)
  have hpbound : is_utf8_char_boundary
      ((strBytes cs).getD (byteLen (cs.take m0)) 0) = true :=
    (strBytes_boundary cs (byteLen (cs.take m0)) (by omega)).mpr ⟨m0, rfl⟩
  have hk1 := boundary_scan_ge (strBytes cs) CHAR_LIMIT (byteLen (cs.take m0)) hpbound hp1
  have hk2 := boundary_scan_le (strBytes cs) CHAR_LIMIT
  have hkbound : is_utf8_char_boundary
      ((strBytes cs).getD (boundary_scan (strBytes cs) CHAR_LIMIT) 0) = true := by
    rcases boundary_scan_found (strBytes cs) CHAR_LIMIT with h0 | hb
    · rw [h0]
      have : byteLen (cs.take m0) = 0 := by omega
      rw [this] at hpbound
      exact hpbound
    · exact hb
  obtain ⟨m, hm⟩ := (strBytes_boundary cs (boundary_scan (strBytes cs) CHAR_LIMIT)
    (by omega)).mp hkbound
  exact ⟨m, hm, hk2, by omega⟩

theorem from_str_long (cs : List Nat) (hv : ∀ c ∈ cs, ValidScalar c)
    (hlong : CHAR_LIMIT < byteLen cs) :
    (BoundedString.from_str (strBytes cs)).as_bytes =
        (strBytes cs).take (boundary_scan (strBytes cs) CHAR_LIMIT) ∧
      (BoundedString.from_str (strBytes cs)).len =
        boundary_scan (strBytes cs) CHAR_LIMIT ∧
      (BoundedString.from_str (strBytes cs)).WF := by
  have hl : (strBytes cs).length = byteLen cs := strBytes_length cs
  obtain ⟨m, hm, hk1, hk2⟩ := from_str_trunc_key cs hv hlong
  have htl : ((strBytes cs).take (boundary_scan (strBytes cs) CHAR_LIMIT)).length =
      boundary_scan (strBytes cs) CHAR_LIMIT := by
    rw [List.length_take]
    omega
  rw [BoundedString.from_str, if_pos (by omega)]
  refine ⟨BoundedString.from_str_unchecked_as_bytes _ (by omega), ?_, ?_⟩
  · rw [BoundedString.from_str_unchecked_len _ (by omega), htl]
  · refine BoundedString.from_str_unchecked_WF _ (by omega) ?_
    rw [← hm, strBytes_take]
    exact valid_take cs m hv

/-! Behaviour of `try_push` and `pop`. -/

theorem BoundedString.try_push_false (b : BoundedString) (ch : Nat) (h : b.WF)
    (hnofit : CHAR_LIMIT - b.len < utf8Len ch) :
    b.try_push ch = (b, false) := by
  have hcond : ¬ (utf8Len ch ≤ b.chars.length - 1 - b.len) := by
    rw [h.1]
    omega
  rw [BoundedString.try_push, if_neg hcond]

theorem BoundedString.try_push_spec (b : BoundedString) (ch : Nat) (h : b.WF)
    (hfit : utf8Len ch ≤ CHAR_LIMIT - b.len) :
    (b.try_push ch).2 = true ∧
      (b.try_push ch).1.len = b.len + utf8Len ch ∧
      (b.try_push ch).1.as_bytes = b.as_bytes ++ utf8Encode ch ∧
      (b.try_push ch).1.chars.length = CHAR_LIMIT + 1 := by
  obtain ⟨data, hc, hdl, hab⟩ := b.WF_shape h
  have hcap := h.2.1
  have hwpos := utf8Len_pos ch
  have hw4 := utf8Len_le_four ch
  have hcond : utf8Len ch ≤ b.chars.length - 1 - b.len := by
    rw [h.1]
    omega
  have hencl : (utf8Encode ch).length = utf8Len ch := utf8Encode_length ch
  have hchars : ((listOverwrite b.chars (b.len + 1) (utf8Encode ch)).set 0
      ((b.len + utf8Len ch) % 256)) =
      (b.len + utf8Len ch) ::
        (data.take b.len ++ (utf8Encode ch ++ data.drop (b.len + utf8Len ch))) := by
    rw [listOverwrite, hc, List.take_succ_cons, hencl]
    have hd : b.len + 1 + utf8Len ch = (b.len + utf8Len ch) + 1 := by omega
    rw [hd, List.drop_succ_cons]
    simp only [List.cons_append]
    rw [List.set_cons_zero]
    have hmod : (b.len + utf8Len ch) % 256 = b.len + utf8Len ch := by
      apply Nat.mod_eq_of_lt
      have he : CHAR_LIMIT = 127 := rfl
      omega
    rw [hmod, List.append_assoc]
  have htl : (data.take b.len).length = b.len := by
    rw [List.length_take]
    omega
  rw [BoundedString.try_push, if_pos hcond, hchars]
  refine ⟨rfl, rfl, ?_, ?_⟩
  · rw [hab]
    show ((data.take b.len ++ (utf8Encode ch ++ data.drop (b.len + utf8Len ch))).take
      (b.len + utf8Len ch)) = data.take b.len ++ utf8Encode ch
    rw [List.take_append_eq_append_take, htl,
      List.take_of_length_le (by omega : (data.take b.len).length ≤ b.len + utf8Len ch)]
    congr 1
    have harith : b.len + utf8Len ch - b.len = utf8Len ch := by omega
    rw [harith, List.take_append_eq_append_take, List.take_of_length_le (le_of_eq hencl),
      hencl]
    simp
  · show ((b.len + utf8Len ch) ::
      (data.take b.len ++ (utf8Encode ch ++ data.drop (b.len + utf8Len ch)))).length =
      CHAR_LIMIT + 1
    rw [List.length_cons, List.length_append, List.length_append, htl, hencl,
      List.length_drop, hdl]
    omega

theorem BoundedString.try_push_WF (b : BoundedString) (ch : Nat) (h : b.WF)
    (hch : ValidScalar ch) (hfit : utf8Len ch ≤ CHAR_LIMIT - b.len) :
    (b.try_push ch).1.WF := by
  obtain ⟨-, hlen, hbytes, hclen⟩ := b.try_push_spec ch h hfit
  refine ⟨hclen, ?_, ?_⟩
  · rw [hlen]
    have := h.2.1
    omega
  · rw [hbytes]
    exact valid_append_encode _ _ h.2.2 hch

theorem BoundedString.pop_empty (b : BoundedString) (h0 : b.len = 0) :
    b.pop = (none, b) := by
  have hab : b.as_bytes = [] := by
    rw [BoundedString.as_bytes, h0]
    simp
  rw [BoundedString.pop, hab]
  rfl

theorem BoundedString.pop_spec (b : BoundedString) (h : b.WF) (h0 : 0 < b.len) :
    ∃ ch cs, utf8Decode b.as_bytes = some cs ∧ cs ≠ [] ∧ cs.getLast? = some ch ∧
      ValidScalar ch ∧ utf8Len ch ≤ b.len ∧
      (b.pop).1 = some ch ∧
      (b.pop).2.len = b.len - utf8Len ch ∧
      (b.pop).2.as_bytes ++ utf8Encode ch = b.as_bytes ∧
      (b.pop).2.WF := by
  obtain ⟨data, hc, hdl, hab⟩ := b.WF_shape h
  have hcap := h.2.1
  have hvalid := h.2.2
  rw [ValidUtf8, Option.isSome_iff_exists] at hvalid
  obtain ⟨cs, hdec⟩ := hvalid
  obtain ⟨hbytes, hv⟩ := utf8Decode_sound b.as_bytes.length b.as_bytes cs le_rfl hdec
  have habl : b.as_bytes.length = b.len := b.as_bytes_length h
  have hbl : byteLen cs = b.len := by
    rw [← habl, hbytes, strBytes_length]
  have hne : cs ≠ [] := by
    intro hnil
    rw [hnil, byteLen_nil] at hbl
    omega
  have hlast : cs.getLast? = some (cs.getLast hne) := List.getLast?_eq_getLast cs hne
  have hchv : ValidScalar (cs.getLast hne) := hv _ (List.getLast_mem hne)
  have hsplit : cs.dropLast ++ [cs.getLast hne] = cs := List.dropLast_append_getLast hne
  have hwch : byteLen cs.dropLast + utf8Len (cs.getLast hne) = byteLen cs := by
    conv_rhs => rw [← hsplit]
    rw [byteLen_append, byteLen_cons, byteLen_nil]
    omega
  have hwle : utf8Len (cs.getLast hne) ≤ b.len := by omega
  have hsc : (utf8Decode b.as_bytes).bind List.getLast? = some (cs.getLast hne) := by
    rw [hdec]
    simpa using hlast
  have hmod : (b.len - utf8Len (cs.getLast hne)) % 256 = b.len - utf8Len (cs.getLast hne) := by
    apply Nat.mod_eq_of_lt
    have he : CHAR_LIMIT = 127 := rfl
    omega
  have hpop : b.pop =
      (some (cs.getLast hne), ⟨b.chars.set 0 (b.len - utf8Len (cs.getLast hne))⟩) := by
    rw [BoundedString.pop, hsc]
    show ((some (cs.getLast hne),
      (⟨b.chars.set 0 ((b.len - utf8Len (cs.getLast hne)) % 256)⟩ : BoundedString)) :
      Option Nat × BoundedString) = _
    rw [hmod]
  have hset : b.chars.set 0 (b.len - utf8Len (cs.getLast hne)) =
      (b.len - utf8Len (cs.getLast hne)) :: data := by
    rw [hc, List.set_cons_zero]
  have hlen2 : (⟨b.chars.set 0 (b.len - utf8Len (cs.getLast hne))⟩ : BoundedString).len
      = b.len - utf8Len (cs.getLast hne) :=
    BoundedString.len_shape _ _ _ (by rw [hset])
  have hset2 : (⟨b.chars.set 0 (b.len - utf8Len (cs.getLast hne))⟩ : BoundedString).as_bytes
      = data.take (b.len - utf8Len (cs.getLast hne)) := by
    rw [BoundedString.as_bytes, hlen2]
    show ((b.chars.set 0 (b.len - utf8Len (cs.getLast hne))).drop 1).take
      (b.len - utf8Len (cs.getLast hne)) = _
    rw [hset, List.drop_succ_cons, List.drop_zero]
  have hdb0 : data.take (b.len - utf8Len (cs.getLast hne)) = strBytes cs.dropLast := by
    have h1 : data.take (b.len - utf8Len (cs.getLast hne)) =
        b.as_bytes.take (b.len - utf8Len (cs.getLast hne)) := by
      rw [hab, List.take_take]
      congr 1
      omega
    rw [h1, hbytes]
    have hdt : cs.dropLast = cs.take (cs.length - 1) := List.dropLast_eq_take cs
    have hbd : byteLen (cs.take (cs.length - 1)) = b.len - utf8Len (cs.getLast hne) := by
      rw [← hdt]
      omega
    rw [← hbd, strBytes_take, ← hdt]
  have hpl : (b.pop).2.len = b.len - utf8Len (cs.getLast hne) := by
    rw [hpop]
    exact hlen2
  have hpbytes : (b.pop).2.as_bytes = strBytes cs.dropLast := by
    rw [hpop]
    rw [hset2, hdb0]
  refine ⟨cs.getLast hne, cs, hdec, hne, hlast, hchv, hwle, by rw [hpop], hpl, ?_, ?_⟩
  · rw [hpbytes, show utf8Encode (cs.getLast hne) = strBytes [cs.getLast hne] from
      by simp [strBytes], ← strBytes_append, hsplit, hbytes]
  · refine ⟨?_, ?_, ?_⟩
    · rw [hpop]
      show (b.chars.set 0 (b.len - utf8Len (cs.getLast hne))).length = CHAR_LIMIT + 1
      rw [List.length_set, h.1]
    · rw [hpl]
      omega
    · rw [hpbytes]
      exact valid_strBytes _ (fun c hcmem => hv c (List.dropLast_subset cs hcmem))

/-! Codec lemmas for `Kind` and `Message`. -/

theorem Kind.decode_of_encode (k : Kind) (rest : List Nat) :
    Kind.decode (k.encode ++ rest) = .ok (k, rest) := by
  cases k <;> rfl

theorem Kind.decode_unknown (d : Nat) (rest : List Nat) (h : 1 < d) :
    Kind.decode (d :: rest) = .error .UnknownDiscriminant := by
  simp only [Kind.decode]
  rw [if_neg (by omega), if_neg (by omega)]

theorem Message.decode_step (input r1 r2 : List Nat) (k : Kind) (s : BoundedString)
    (h1 : Kind.decode input = .ok (k, r1))
    (h2 : BoundedString.decode r1 = .ok (s, r2)) :
    Message.decode input = .ok (⟨k, s⟩, r2) := by
  unfold Message.decode
  rw [h1]
  show (match BoundedString.decode r1 with
    | Except.error e => Except.error e
    | Except.ok (s, rest2) => Except.ok ((⟨k, s⟩ : Message), rest2)) =
    Except.ok ((⟨k, s⟩ : Message), r2)
  rw [h2]

theorem Message.decode_kind_error (input : List Nat) (e : CodecError)
    (h : Kind.decode input = .error e) : Message.decode input = .error e := by
  unfold Message.decode
  rw [h]

/-- Claim C1: decoding the encoding of a valid `BoundedString` yields
a `BoundedString` equal to it (Rust equality compares the logical
content `as_str`/`as_bytes`), and decoding the encoding of a valid
`Message` yields an equal `Message`. -/
theorem roundtrip_C1 :
    (∀ s : BoundedString, s.WF →
      ∃ s2, BoundedString.decode s.encode = .ok (s2, []) ∧
        s2.as_bytes = s.as_bytes) ∧
    (∀ m : Message, m.WF →
      ∃ m2, Message.decode m.encode = .ok (m2, []) ∧ m2.kind = m.kind ∧
        m2.message.as_bytes = m.message.as_bytes) := by
  constructor
  · intro s hs
    obtain ⟨s2, hdec, hbytes, hlen⟩ := s.decode_encode hs
    exact ⟨s2, hdec, hbytes⟩
  · intro m hm
    obtain ⟨s2, hdec, hbytes, hlen⟩ := m.message.decode_encode hm
    refine ⟨⟨m.kind, s2⟩, ?_, rfl, hbytes⟩
    rw [Message.encode]
    exact Message.decode_step _ _ _ _ _ (Kind.decode_of_encode m.kind m.message.encode) hdec

/-- Witness for C1 at the empty `BoundedString` and the `Ping` message
carrying it. -/
theorem roundtrip_C1_witness :
    BoundedString.new.WF ∧ Message.WF ⟨Kind.Ping, BoundedString.new⟩ ∧
    (∃ s2, BoundedString.decode BoundedString.new.encode = .ok (s2, []) ∧
      s2.as_bytes = BoundedString.new.as_bytes) ∧
    (∃ m2, Message.decode (Message.encode ⟨Kind.Ping, BoundedString.new⟩) =
        .ok (m2, []) ∧ m2.kind = Kind.Ping ∧
      m2.message.as_bytes = BoundedString.new.as_bytes) :=
  ⟨by decide, by decide, roundtrip_C1.1 BoundedString.new (by decide),
    roundtrip_C1.2 ⟨Kind.Ping, BoundedString.new⟩ (by decide)⟩

/-- Claim C7: a decode input whose length byte exceeds the capacity
fails with the length-exceeds-capacity error ("string out of bounds")
whatever the rest of the input holds, i.e. before any payload byte is
read; a successful decode constructs the `BoundedString` directly from
the validated input bytes, verbatim. -/
theorem decode_capacity_C7 :
    (∀ L rest, CHAR_LIMIT < L →
      BoundedString.decode (L :: rest) = .error .StringOutOfBounds) ∧
    (∀ input b rest, BoundedString.decode input = .ok (b, rest) →
      ∃ L r, input = L :: r ∧ L ≤ CHAR_LIMIT ∧ b.len = L ∧
        b.as_bytes = r.take L ∧ rest = r.drop L) := by
  constructor
  · intro L rest h
    rw [BoundedString.decode_cons, if_pos h]
  · intro input b rest h
    obtain ⟨hwf, hcap, L, r, hin, hlen, hbytes, hrest⟩ :=
      BoundedString.decode_ok_WF input b rest h
    exact ⟨L, r, hin, by omega, hlen, hbytes, hrest⟩

/-- Witness for C7: length byte 128 over capacity 127 is rejected with
no payload present, and a successful decode of `[1, 0x41]` returns the
byte verbatim. -/
theorem decode_capacity_C7_witness :
    BoundedString.decode [128] = .error .StringOutOfBounds ∧
    (∃ L r, ([1, 0x41] : List Nat) = L :: r ∧ L ≤ CHAR_LIMIT ∧
      (BoundedString.from_str_unchecked [0x41]).len = L ∧
      (BoundedString.from_str_unchecked [0x41]).as_bytes = r.take L ∧
      ([] : List Nat) = r.drop L) :=
  ⟨decode_capacity_C7.1 128 [] (by decide),
    decode_capacity_C7.2 [1, 0x41] (BoundedString.from_str_unchecked [0x41]) []
      (by decide)⟩

/-- Counterexample to C5 as stated: the input `[128]` declares length
128 with zero payload bytes available, yet decoding fails with the
"string out of bounds" (length-exceeds-capacity) error, not with the
parity-codec input-exhausted (`Truncated`) error. -/
theorem decode_matrix_C5_counterexample :
    (0 : Nat) < 128 ∧
    BoundedString.decode [128] ≠ .error .Truncated ∧
    BoundedString.decode [128] = .error .StringOutOfBounds := by
  refine ⟨by decide, by decide, by decide⟩

/-- Claim C5 (amended: the truncated-input and invalid-UTF-8 rules hold
for declared lengths within the capacity `N` = 127; a declared length
above the capacity fails with the length-exceeds-capacity error
instead): fewer than `L ≤ N` available payload bytes fail `Truncated`,
`L > N` fails `StringOutOfBounds`, `L ≤ N` non-UTF-8 payload fails
`InvalidUtf8`, and an envelope discriminant byte outside {0, 1} fails
`UnknownDiscriminant`. -/
theorem decode_matrix_C5 :
    (∀ L rest, L ≤ CHAR_LIMIT → rest.length < L →
      BoundedString.decode (L :: rest) = .error .Truncated) ∧
    (∀ L rest, CHAR_LIMIT < L →
      BoundedString.decode (L :: rest) = .error .StringOutOfBounds) ∧
    (∀ L rest, L ≤ CHAR_LIMIT → L ≤ rest.length → utf8Decode (rest.take L) = none →
      BoundedString.decode (L :: rest) = .error .InvalidUtf8) ∧
    (∀ d rest, 1 < d →
      Message.decode (d :: rest) = .error .UnknownDiscriminant) := by
  refine ⟨?_, ?_, ?_, ?_⟩
  · intro L rest h1 h2
    rw [BoundedString.decode_cons, if_neg (by omega), if_pos h2]
  · intro L rest h
    rw [BoundedString.decode_cons, if_pos h]
  · intro L rest h1 h2 h3
    rw [BoundedString.decode_cons, if_neg (by omega), if_neg (by omega), h3]
  · intro d rest h
    exact Message.decode_kind_error _ _ (Kind.decode_unknown d rest h)

/-- Witness for the amended C5 at concrete inputs: declared length 5
with no bytes, declared length 128, a lone continuation byte 0xFF, and
discriminant byte 2. -/
theorem decode_matrix_C5_witness :
    BoundedString.decode [5] = .error .Truncated ∧
    BoundedString.decode [200] = .error .StringOutOfBounds ∧
    BoundedString.decode [1, 0xFF] = .error .InvalidUtf8 ∧
    Message.decode [2] = .error .UnknownDiscriminant :=
  ⟨decode_matrix_C5.1 5 [] (by decide) (by decide),
    decode_matrix_C5.2.1 200 [] (by decide),
    decode_matrix_C5.2.2.1 1 [0xFF] (by decide) (by decide) (by decide),
    decode_matrix_C5.2.2.2 2 [] (by decide)⟩

/-- Counterexample to C6 as stated: "message from host" is 17 bytes,
so the encoding carries length byte `0x11`, not `0x12`; the claimed
byte sequence (which declares 18 payload bytes but provides 17) is not
the encoding and fails to decode. -/
theorem scenario_C6_counterexample :
    Message.encode scenarioMessage ≠ claimedScenarioBytes ∧
    Message.decode claimedScenarioBytes = .error .Truncated := by
  refine ⟨by decide, by decide⟩

/-- Claim C6 (amended: the payload "message from host" is 17 = `0x11`
bytes long, so the encoding is `00 11 6D ... 74` and decoding that byte
sequence reproduces the message): the scenario message encodes to the
discriminant byte `0x00`, the length byte `0x11`, then the 17 ASCII
payload bytes, and decoding those bytes returns the message exactly. -/
theorem scenario_C6 :
    Message.encode scenarioMessage = actualScenarioBytes ∧
    Message.decode actualScenarioBytes = .ok (scenarioMessage, []) := by
  refine ⟨by decide, by decide⟩

/-- Claim C4: the host logging sink rejects any offset/length pair
whose saturating sum exceeds the current region size with the
out-of-bounds error (overflow cannot wrap into an in-bounds value), it
only returns byte views that passed UTF-8 validation, and in-bounds
bytes that fail validation produce the invalid-UTF-8 error, never a
view. -/
theorem bounds_C4 :
    (∀ (mem : List Nat) (offset length : Nat), offset < 2 ^ 32 → length < 2 ^ 32 →
      mem.length < min (offset + length) USIZE_MAX →
      console_log mem offset length = .error .OutOfBounds) ∧
    (∀ (mem : List Nat) (offset length : Nat) (bytes : List Nat),
      console_log mem offset length = .ok bytes →
      ValidUtf8 bytes ∧
        bytes = (mem.drop (min offset USIZE_MAX)).take
          (min (min offset USIZE_MAX + length) USIZE_MAX - min offset USIZE_MAX)) ∧
    (∀ (mem : List Nat) (offset length : Nat),
      ¬ ValidUtf8 ((mem.drop (min offset USIZE_MAX)).take
          (min (min offset USIZE_MAX + length) USIZE_MAX - min offset USIZE_MAX)) →
      console_log mem offset length = .error .OutOfBounds ∨
        console_log mem offset length = .error .InvalidUtf8) := by
  refine ⟨?_, ?_, ?_⟩
  · intro mem offset length ho hl hexceeds
    have h1 : min offset USIZE_MAX = offset := by
      rw [USIZE_MAX]; omega
    have h2 : min (offset + length) USIZE_MAX = offset + length := by
      rw [USIZE_MAX]; omega
    rw [console_log, h1, h2, if_neg (by omega)]
  · intro mem offset length bytes h
    rw [console_log] at h
    split_ifs at h with hc
    cases hdec : utf8Decode ((mem.drop (min offset USIZE_MAX)).take
        (min (min offset USIZE_MAX + length) USIZE_MAX - min offset USIZE_MAX)) with
    | none => rw [hdec] at h; simp at h
    | some cs =>
      rw [hdec] at h
      have h2 : (Except.ok ((mem.drop (min offset USIZE_MAX)).take
          (min (min offset USIZE_MAX + length) USIZE_MAX - min offset USIZE_MAX)) :
          Except LogError (List Nat)) = Except.ok bytes := h
      simp only [Except.ok.injEq] at h2
      subst h2
      exact ⟨by rw [ValidUtf8, hdec]; rfl, rfl⟩
  · intro mem offset length hinv
    rw [console_log]
    split_ifs with hc
    · cases hdec : utf8Decode ((mem.drop (min offset USIZE_MAX)).take
          (min (min offset USIZE_MAX + length) USIZE_MAX - min offset USIZE_MAX)) with
      | none => exact Or.inr rfl
      | some cs =>
        rw [ValidUtf8, hdec] at hinv
        exact absurd rfl hinv
    · exact Or.inl rfl

/-- Witness for C4: a one-byte region rejects the pair (0, 2), returns
the validated byte for (0, 1), and rejects the invalid byte 0xFF. -/
theorem bounds_C4_witness :
    console_log [65] 0 2 = .error .OutOfBounds ∧
    (ValidUtf8 [65] ∧
      ([65] : List Nat) = (([65] : List Nat).drop (min 0 USIZE_MAX)).take
        (min (min 0 USIZE_MAX + 1) USIZE_MAX - min 0 USIZE_MAX)) ∧
    (console_log [0xFF] 0 1 = .error .OutOfBounds ∨
      console_log [0xFF] 0 1 = .error .InvalidUtf8) :=
  ⟨bounds_C4.1 [65] 0 2 (by decide) (by decide) (by decide),
    bounds_C4.2.1 [65] 0 1 [65] (by decide),
    bounds_C4.2.2 [0xFF] 0 1 (by decide)⟩

/-- Claim C2: every `BoundedString` produced by a public constructor
or mutator — `new`, `from_str` on a valid UTF-8 string,
`from_str_checked`, `decode`, `try_push`, `pop` — has length at most
the capacity 127 and `as_str`/`as_bytes` content that is valid,
complete UTF-8 (never a truncated multi-byte sequence). -/
theorem invariant_C2 :
    (BoundedString.new.len ≤ CHAR_LIMIT ∧ ValidUtf8 BoundedString.new.as_bytes) ∧
    (∀ cs, (∀ c ∈ cs, ValidScalar c) →
      (BoundedString.from_str (strBytes cs)).len ≤ CHAR_LIMIT ∧
        ValidUtf8 (BoundedString.from_str (strBytes cs)).as_bytes) ∧
    (∀ cs b, (∀ c ∈ cs, ValidScalar c) →
      BoundedString.from_str_checked (strBytes cs) = some b →
      b.len ≤ CHAR_LIMIT ∧ ValidUtf8 b.as_bytes) ∧
    (∀ input b rest, BoundedString.decode input = .ok (b, rest) →
      b.len ≤ CHAR_LIMIT ∧ ValidUtf8 b.as_bytes) ∧
    (∀ (b : BoundedString) (ch : Nat), b.WF → ValidScalar ch →
      (b.try_push ch).1.len ≤ CHAR_LIMIT ∧ ValidUtf8 (b.try_push ch).1.as_bytes) ∧
    (∀ b : BoundedString, b.WF →
      (b.pop).2.len ≤ CHAR_LIMIT ∧ ValidUtf8 (b.pop).2.as_bytes) := by
  refine ⟨⟨by decide, by decide⟩, ?_, ?_, ?_, ?_, ?_⟩
  · intro cs hv
    rcases le_or_lt (byteLen cs) CHAR_LIMIT with hfit | hlong
    · obtain ⟨-, -, hwf⟩ := from_str_fit cs hv hfit
      exact ⟨hwf.2.1, hwf.2.2⟩
    · obtain ⟨-, -, hwf⟩ := from_str_long cs hv hlong
      exact ⟨hwf.2.1, hwf.2.2⟩
  · intro cs b hv hchecked
    rw [BoundedString.from_str_checked] at hchecked
    split_ifs at hchecked with hlong
    rw [Option.some.injEq] at hchecked
    subst hchecked
    have hl : (strBytes cs).length = byteLen cs := strBytes_length cs
    have hwf := BoundedString.from_str_unchecked_WF (strBytes cs) (by omega)
      (valid_strBytes cs hv)
    exact ⟨hwf.2.1, hwf.2.2⟩
  · intro input b rest hdec
    obtain ⟨hwf, -⟩ := BoundedString.decode_ok_WF input b rest hdec
    exact ⟨hwf.2.1, hwf.2.2⟩
  · intro b ch hwf hch
    rcases le_or_lt (utf8Len ch) (CHAR_LIMIT - b.len) with hfit | hnofit
    · have h2 := b.try_push_WF ch hwf hch hfit
      exact ⟨h2.2.1, h2.2.2⟩
    · rw [b.try_push_false ch hwf hnofit]
      exact ⟨hwf.2.1, hwf.2.2⟩
  · intro b hwf
    rcases Nat.eq_zero_or_pos b.len with h0 | h0
    · rw [b.pop_empty h0]
      exact ⟨hwf.2.1, hwf.2.2⟩
    · obtain ⟨ch, cs, -, -, -, -, -, -, -, -, hpwf⟩ := b.pop_spec hwf h0
      exact ⟨hpwf.2.1, hpwf.2.2⟩

/-- Witness for C2 at concrete inputs: the character list "a", the
checked construction of "a", the decode input `[1, 0x41]`, and pushes
and pops on the empty string. -/
theorem invariant_C2_witness :
    ((BoundedString.from_str (strBytes [97])).len ≤ CHAR_LIMIT ∧
      ValidUtf8 (BoundedString.from_str (strBytes [97])).as_bytes) ∧
    ((BoundedString.from_str_unchecked (strBytes [97])).len ≤ CHAR_LIMIT ∧
      ValidUtf8 (BoundedString.from_str_unchecked (strBytes [97])).as_bytes) ∧
    ((BoundedString.new.try_push 97).1.len ≤ CHAR_LIMIT ∧
      ValidUtf8 (BoundedString.new.try_push 97).1.as_bytes) ∧
    ((BoundedString.new.pop).2.len ≤ CHAR_LIMIT ∧
      ValidUtf8 (BoundedString.new.pop).2.as_bytes) :=
  ⟨invariant_C2.2.1 [97] (by decide),
    invariant_C2.2.2.1 [97] (BoundedString.from_str_unchecked (strBytes [97]))
      (by decide) (by decide),
    invariant_C2.2.2.2.2.1 BoundedString.new 97 (by decide) (by decide),
    invariant_C2.2.2.2.2.2 BoundedString.new (by decide)⟩

/-- Claim C8: `try_push` succeeds exactly when the remaining capacity
`127 - len` is at least the character's UTF-8 byte width; on success
exactly the character's UTF-8 encoding is appended; on failure the
buffer (content and length) is completely unchanged — no partial
write. -/
theorem append_char_C8 :
    ∀ (b : BoundedString) (ch : Nat), b.WF → ValidScalar ch →
      ((b.try_push ch).2 = true ↔ utf8Len ch ≤ CHAR_LIMIT - b.len) ∧
      ((b.try_push ch).2 = true →
        (b.try_push ch).1.as_bytes = b.as_bytes ++ utf8Encode ch ∧
        (b.try_push ch).1.len = b.len + utf8Len ch) ∧
      ((b.try_push ch).2 = false → (b.try_push ch).1 = b) := by
  intro b ch hwf hch
  rcases le_or_lt (utf8Len ch) (CHAR_LIMIT - b.len) with hfit | hnofit
  · obtain ⟨hret, hlen, hbytes, -⟩ := b.try_push_spec ch hwf hfit
    refine ⟨?_, ?_, ?_⟩
    · exact ⟨fun _ => hfit, fun _ => hret⟩
    · exact fun _ => ⟨hbytes, hlen⟩
    · intro hfalse
      rw [hret] at hfalse
      exact absurd hfalse (by simp)
  · have hres := b.try_push_false ch hwf hnofit
    rw [hres]
    refine ⟨?_, ?_, ?_⟩
    · constructor
      · intro htrue
        exact absurd htrue (by simp)
      · intro hle
        exact absurd hle (by omega)
    · intro htrue
      exact absurd htrue (by simp)
    · intro hfalse2
      rfl

/-- Witness for C8 on the empty string and the character 'a'. -/
theorem append_char_C8_witness :
    ((BoundedString.new.try_push 97).2 = true ↔
      utf8Len 97 ≤ CHAR_LIMIT - BoundedString.new.len) ∧
    ((BoundedString.new.try_push 97).2 = true →
      (BoundedString.new.try_push 97).1.as_bytes =
        BoundedString.new.as_bytes ++ utf8Encode 97 ∧
      (BoundedString.new.try_push 97).1.len =
        BoundedString.new.len + utf8Len 97) ∧
    ((BoundedString.new.try_push 97).2 = false →
      (BoundedString.new.try_push 97).1 = BoundedString.new) :=
  append_char_C8 BoundedString.new 97 (by decide) (by decide)

/-- Claim C9: a successful `try_push` followed by `pop` returns the
pushed character and restores the original content and length exactly;
`pop` on an empty `BoundedString` returns `none` and leaves it
unchanged; `pop` on a nonempty one removes exactly the last whole
character, shrinking the length by that character's UTF-8 byte
width. -/
theorem append_pop_C9 :
    ∀ b : BoundedString, b.WF →
      (∀ ch, ValidScalar ch → (b.try_push ch).2 = true →
        ((b.try_push ch).1.pop).1 = some ch ∧
        ((b.try_push ch).1.pop).2.as_bytes = b.as_bytes ∧
        ((b.try_push ch).1.pop).2.len = b.len) ∧
      (b.len = 0 → b.pop = (none, b)) ∧
      (0 < b.len → ∃ ch, (b.pop).1 = some ch ∧
        (b.pop).2.len = b.len - utf8Len ch ∧
        (b.pop).2.as_bytes ++ utf8Encode ch = b.as_bytes) := by
  intro b hwf
  refine ⟨?_, fun h0 => b.pop_empty h0, ?_⟩
  · intro ch hch htrue
    have hfit : utf8Len ch ≤ CHAR_LIMIT - b.len := by
      by_contra hnofit
      have := b.try_push_false ch hwf (by omega)
      rw [this] at htrue
      cases htrue
    obtain ⟨-, hlen, hbytes, -⟩ := b.try_push_spec ch hwf hfit
    have hwf2 := b.try_push_WF ch hwf hch hfit
    have hwpos := utf8Len_pos ch
    have h0 : 0 < (b.try_push ch).1.len := by omega
    obtain ⟨ch2, cs2, hdec2, hne2, hlast2, -, -, hp1, hp2, hp3, -⟩ :=
      (b.try_push ch).1.pop_spec hwf2 h0
    have hvb := hwf.2.2
    rw [ValidUtf8, Option.isSome_iff_exists] at hvb
    obtain ⟨cs, hdec⟩ := hvb
    obtain ⟨hbs, hv⟩ := utf8Decode_sound b.as_bytes.length b.as_bytes cs le_rfl hdec
    have hdecb : utf8Decode ((b.try_push ch).1.as_bytes) = some (cs ++ [ch]) := by
      rw [hbytes, hbs, show utf8Encode ch = strBytes [ch] from by simp [strBytes],
        ← strBytes_append]
      refine utf8Decode_strBytes _ (fun c hcmem => ?_)
      rcases List.mem_append.mp hcmem with hc1 | hc2
      · exact hv c hc1
      · rw [List.mem_singleton.mp hc2]
        exact hch
    have hcs2 : cs2 = cs ++ [ch] := by
      rw [hdec2] at hdecb
      exact (Option.some.injEq _ _).mp hdecb
    have hch2 : ch2 = ch := by
      rw [hcs2] at hlast2
      simp at hlast2
      exact hlast2.symm
    rw [hch2] at hp1 hp2 hp3
    refine ⟨hp1, ?_, ?_⟩
    · have hcancel : ((b.try_push ch).1.pop).2.as_bytes ++ utf8Encode ch =
          b.as_bytes ++ utf8Encode ch := by
        rw [hp3, hbytes]
      exact List.append_cancel_right hcancel
    · rw [hp2, hlen]
      omega
  · intro h0
    obtain ⟨ch, cs, -, -, -, -, -, hp1, hp2, hp3, -⟩ := b.pop_spec hwf h0
    exact ⟨ch, hp1, hp2, hp3⟩

/-- Witness for C9 on the empty string and the character 'a' (push
then pop), plus pop on the nonempty string "a". -/
theorem append_pop_C9_witness :
    ((BoundedString.new.try_push 97).2 = true →
      ((BoundedString.new.try_push 97).1.pop).1 = some 97 ∧
      ((BoundedString.new.try_push 97).1.pop).2.as_bytes =
        BoundedString.new.as_bytes ∧
      ((BoundedString.new.try_push 97).1.pop).2.len = BoundedString.new.len) ∧
    (0 < (BoundedString.from_str_unchecked [97]).len →
      ∃ ch, ((BoundedString.from_str_unchecked [97]).pop).1 = some ch ∧
        ((BoundedString.from_str_unchecked [97]).pop).2.len =
          (BoundedString.from_str_unchecked [97]).len - utf8Len ch ∧
        ((BoundedString.from_str_unchecked [97]).pop).2.as_bytes ++ utf8Encode ch =
          (BoundedString.from_str_unchecked [97]).as_bytes) :=
  ⟨(append_pop_C9 BoundedString.new (by decide)).1 97 (by decide),
    (append_pop_C9 (BoundedString.from_str_unchecked [97]) (by decide)).2.2⟩

/-- Claim C3: `from_str` on a valid UTF-8 string longer than the
capacity returns exactly the first `k` bytes of the input, where
`k = boundary_scan s 127` is the largest index at most 127 holding a
character-boundary byte (boundary at `k`, no boundary above `k` up to
127), with `124 ≤ k ≤ 127`; on input that fits the copy is verbatim
(`from_str` is total, it never fails). -/
theorem from_str_C3 :
    ∀ cs, (∀ c ∈ cs, ValidScalar c) →
      (byteLen cs ≤ CHAR_LIMIT →
        (BoundedString.from_str (strBytes cs)).as_bytes = strBytes cs) ∧
      (CHAR_LIMIT < byteLen cs →
        ∃ k, k = boundary_scan (strBytes cs) CHAR_LIMIT ∧
          (BoundedString.from_str (strBytes cs)).as_bytes = (strBytes cs).take k ∧
          CHAR_LIMIT - 3 ≤ k ∧ k ≤ CHAR_LIMIT ∧
          is_utf8_char_boundary ((strBytes cs).getD k 0) = true ∧
          (∀ j, k < j → j ≤ CHAR_LIMIT →
            is_utf8_char_boundary ((strBytes cs).getD j 0) = false)) := by
  intro cs hv
  constructor
  · intro hfit
    exact (from_str_fit cs hv hfit).1
  · intro hlong
    obtain ⟨habytes, hlen, hwf⟩ := from_str_long cs hv hlong
    obtain ⟨m, hm, hk1, hk2⟩ := from_str_trunc_key cs hv hlong
    refine ⟨boundary_scan (strBytes cs) CHAR_LIMIT, rfl, habytes, hk2, hk1, ?_, ?_⟩
    · refine (strBytes_boundary cs _ ?_).mpr ⟨m, hm⟩
      omega
    · exact boundary_scan_above (strBytes cs) CHAR_LIMIT

/-- Witness for C3 at 128 repetitions of the one-byte character 'a'
(128 bytes, one over the capacity) and at the single character 'a'. -/
theorem from_str_C3_witness :
    (byteLen [97] ≤ CHAR_LIMIT →
      (BoundedString.from_str (strBytes [97])).as_bytes = strBytes [97]) ∧
    (CHAR_LIMIT < byteLen (List.replicate 128 97) →
      ∃ k, k = boundary_scan (strBytes (List.replicate 128 97)) CHAR_LIMIT ∧
        (BoundedString.from_str (strBytes (List.replicate 128 97))).as_bytes =
          (strBytes (List.replicate 128 97)).take k ∧
        CHAR_LIMIT - 3 ≤ k ∧ k ≤ CHAR_LIMIT ∧
        is_utf8_char_boundary ((strBytes (List.replicate 128 97)).getD k 0) = true ∧
        (∀ j, k < j → j ≤ CHAR_LIMIT →
          is_utf8_char_boundary ((strBytes (List.replicate 128 97)).getD j 0) = false)) :=
  ⟨(from_str_C3 [97] (by decide)).1,
    (from_str_C3 (List.replicate 128 97) (by decide)).2⟩

theorem BoundedString.mk_len (v : Nat) (rest : List Nat) :
    (⟨v :: rest⟩ : BoundedString).len = v := rfl

theorem BoundedString.mk_as_bytes (v : Nat) (rest : List Nat) :
    (⟨v :: rest⟩ : BoundedString).as_bytes = rest.take v := rfl

/-! The greedy character loop of `tiny_str.rs` and the fit count. -/

theorem fitCount_le_length (cs : List Nat) (cap : Nat) : fitCount cs cap ≤ cs.length := by
  induction cs generalizing cap with
  | nil => simp [fitCount]
  | cons c cs ih =>
    rw [fitCount]
    split_ifs with hw
    · simpa using ih (cap - utf8Len c)
    · simp

theorem byteLen_fitCount (cs : List Nat) (cap : Nat) :
    byteLen (cs.take (fitCount cs cap)) ≤ cap := by
  induction cs generalizing cap with
  | nil => simp [fitCount, byteLen]
  | cons c cs ih =>
    rw [fitCount]
    split_ifs with hw
    · rw [List.take_succ_cons, byteLen_cons]
      have := ih (cap - utf8Len c)
      omega
    · simp [byteLen]

theorem fitCount_maximal (cs : List Nat) (cap : Nat)
    (h : fitCount cs cap < cs.length) :
    cap < byteLen (cs.take (fitCount cs cap + 1)) := by
  induction cs generalizing cap with
  | nil => simp at h
  | cons c cs ih =>
    rw [fitCount] at h ⊢
    split_ifs at h ⊢ with hw
    · rw [List.take_succ_cons, byteLen_cons]
      have := ih (cap - utf8Len c) (by simpa using h)
      omega
    · rw [List.take_succ_cons, List.take_zero, byteLen_cons, byteLen_nil]
      omega

theorem fitCount_ge (cs : List Nat) (cap : Nat) (m : Nat)
    (h : byteLen (cs.take m) ≤ cap) (hm : m ≤ cs.length) : m ≤ fitCount cs cap := by
  induction cs generalizing cap m with
  | nil =>
    simp only [List.length_nil, Nat.le_zero] at hm
    simp [fitCount, hm]
  | cons c cs ih =>
    cases m with
    | zero => simp
    | succ m =>
      rw [List.take_succ_cons, byteLen_cons] at h
      have hw : utf8Len c ≤ cap := by
        have := utf8Len_pos c
        omega
      rw [fitCount, if_pos hw]
      have := ih (cap - utf8Len c) m (by omega) (by simpa using hm)
      omega

theorem fromCharsAux_spec (cs : List Nat) : ∀ buf : List Nat,
    (fromCharsAux cs buf).1 = byteLen (cs.take (fitCount cs buf.length)) ∧
    (fromCharsAux cs buf).2 =
      strBytes (cs.take (fitCount cs buf.length)) ++
        buf.drop (byteLen (cs.take (fitCount cs buf.length))) := by
  induction cs with
  | nil => intro buf; simp [fromCharsAux, fitCount, byteLen, strBytes]
  | cons c cs ih =>
    intro buf
    rw [fromCharsAux, fitCount]
    split_ifs with hw
    · obtain ⟨ih1, ih2⟩ := ih (buf.drop (utf8Len c))
      rw [List.length_drop] at ih1 ih2
      rw [List.take_succ_cons, byteLen_cons, strBytes_cons]
      constructor
      · show (fromCharsAux cs (buf.drop (utf8Len c))).1 + utf8Len c = _
        omega
      · show utf8Encode c ++ (fromCharsAux cs (buf.drop (utf8Len c))).2 = _
        rw [ih2, List.drop_drop, List.append_assoc]
    · simp [byteLen, strBytes]

theorem from_chars_as_bytes (cs : List Nat) :
    (BoundedString.from_chars cs).as_bytes =
      strBytes (cs.take (fitCount cs CHAR_LIMIT)) := by
  obtain ⟨h1, h2⟩ := fromCharsAux_spec cs (List.replicate CHAR_LIMIT 0)
  rw [List.length_replicate] at h1 h2
  have hble := byteLen_fitCount cs CHAR_LIMIT
  have hmod : (fromCharsAux cs (List.replicate CHAR_LIMIT 0)).1 % 256 =
      byteLen (cs.take (fitCount cs CHAR_LIMIT)) := by
    rw [h1]
    apply Nat.mod_eq_of_lt
    have he : CHAR_LIMIT = 127 := rfl
    omega
  have hstl : (strBytes (cs.take (fitCount cs CHAR_LIMIT))).length =
      byteLen (cs.take (fitCount cs CHAR_LIMIT)) := strBytes_length _
  rw [BoundedString.from_chars, BoundedString.mk_as_bytes, hmod, h2,
    List.take_append_eq_append_take, List.take_of_length_le (le_of_eq hstl), hstl]
  simp

/-- Claim C10: the boundary-scanning `from_str` of `bounded_str.rs`
and the character-iterating `From` conversion of `tiny_str.rs` produce
the same logical content on every valid UTF-8 input: the longest
prefix of whole characters whose total byte length is at most 127. -/
theorem revisions_agree_C10 :
    ∀ cs, (∀ c ∈ cs, ValidScalar c) →
      (BoundedString.from_str (strBytes cs)).as_bytes =
        (BoundedString.from_chars cs).as_bytes ∧
      (BoundedString.from_chars cs).as_bytes =
        strBytes (cs.take (fitCount cs CHAR_LIMIT)) ∧
      byteLen (cs.take (fitCount cs CHAR_LIMIT)) ≤ CHAR_LIMIT ∧
      (fitCount cs CHAR_LIMIT < cs.length →
        CHAR_LIMIT < byteLen (cs.take (fitCount cs CHAR_LIMIT + 1))) := by
  intro cs hv
  refine ⟨?_, from_chars_as_bytes cs, byteLen_fitCount cs CHAR_LIMIT,
    fitCount_maximal cs CHAR_LIMIT⟩
  rw [from_chars_as_bytes cs]
  rcases le_or_lt (byteLen cs) CHAR_LIMIT with hfit | hlong
  · rw [(from_str_fit cs hv hfit).1]
    have hge : cs.length ≤ fitCount cs CHAR_LIMIT :=
      fitCount_ge cs CHAR_LIMIT cs.length (by rw [List.take_length]; omega) le_rfl
    rw [List.take_of_length_le hge]
  · obtain ⟨habytes, -, -⟩ := from_str_long cs hv hlong
    rw [habytes]
    have hfl : fitCount cs CHAR_LIMIT < cs.length := by
      by_contra hge
      have heq : cs.take (fitCount cs CHAR_LIMIT) = cs :=
        List.take_of_length_le (by omega)
      have hb := byteLen_fitCount cs CHAR_LIMIT
      rw [heq] at hb
      omega
    have hble := byteLen_fitCount cs CHAR_LIMIT
    have hmax := fitCount_maximal cs CHAR_LIMIT hfl
    have hsl : (strBytes cs).length = byteLen cs := strBytes_length cs
    -- the scan index equals the byte length of the longest fitting prefix
    have hkey : boundary_scan (strBytes cs) CHAR_LIMIT =
        byteLen (cs.take (fitCount cs CHAR_LIMIT)) := by
      obtain ⟨m, hm, hk1, hk2⟩ := from_str_trunc_key cs hv hlong
      have hstep := byteLen_take_succ cs (fitCount cs CHAR_LIMIT) hfl
      have hwle := utf8Len_pos (cs.getD (fitCount cs CHAR_LIMIT) 0)
      have hlt : byteLen (cs.take (fitCount cs CHAR_LIMIT)) < byteLen cs := by
        have hmono := byteLen_take_mono cs
          (Nat.succ_le_of_lt hfl : fitCount cs CHAR_LIMIT + 1 ≤ cs.length)
        rw [List.take_of_length_le le_rfl] at hmono
        omega
      have hbd : is_utf8_char_boundary
          ((strBytes cs).getD (byteLen (cs.take (fitCount cs CHAR_LIMIT))) 0) = true :=
        (strBytes_boundary cs _ (by omega)).mpr ⟨fitCount cs CHAR_LIMIT, rfl⟩
      have hup := boundary_scan_ge (strBytes cs) CHAR_LIMIT
        (byteLen (cs.take (fitCount cs CHAR_LIMIT))) hbd (by omega)
      -- conversely the scan result is a fitting character start
      have hmle : m ≤ fitCount cs CHAR_LIMIT := by
        rcases le_or_lt m cs.length with hmlen | hmlen
        · refine fitCount_ge cs CHAR_LIMIT m ?_ hmlen
          omega
        · exfalso
          have : cs.take m = cs := List.take_of_length_le (by omega)
          rw [this] at hm
          omega
      have hdown := byteLen_take_mono cs hmle
      omega
    rw [hkey, strBytes_take]

/-- Witness for C10 at the list of 128 'a' characters, where both
revisions truncate to 127 bytes. -/
theorem revisions_agree_C10_witness :
    (BoundedString.from_str (strBytes (List.replicate 128 97))).as_bytes =
      (BoundedString.from_chars (List.replicate 128 97)).as_bytes ∧
    (BoundedString.from_chars (List.replicate 128 97)).as_bytes =
      strBytes ((List.replicate 128 97).take
        (fitCount (List.replicate 128 97) CHAR_LIMIT)) ∧
    byteLen ((List.replicate 128 97).take
      (fitCount (List.replicate 128 97) CHAR_LIMIT)) ≤ CHAR_LIMIT ∧
    (fitCount (List.replicate 128 97) CHAR_LIMIT < (List.replicate 128 97).length →
      CHAR_LIMIT < byteLen ((List.replicate 128 97).take
        (fitCount (List.replicate 128 97) CHAR_LIMIT + 1))) :=
  revisions_agree_C10 (List.replicate 128 97) (by decide)

end HelloWasm
